import Mathlib

/-!
Verification of the soltra dependency-graph engine and layout engine.

The definitions below are a shallow embedding of the TypeScript sources:
  * src/entities/workstreams/types.ts
  * src/entities/workstreams/workstream-service.ts
  * src/entities/workstreams/workstream-file-storage.ts
  * src/entities/workstreams/workstream-task-service.ts
  * the DAG positioning module (calculateDAGPositions)

Persistent storage is modelled as an explicit `Storage` value threaded through
the operations; `loadWorkstreams`/`storeWorkstreams` become reads/writes of
that value.  JavaScript `Map`s are modelled as insertion-ordered association
lists, JavaScript `Set`s as duplicate-free insertion-ordered lists, and
exceptions as `Except`/`Option` error values.  UUID generation
(`crypto.randomUUID`) is modelled by a deterministic generator that provably
never collides with an existing workstream uuid, matching the effective
global-uniqueness assumption of the source.
-/

namespace Soltra

/-- kind of a dependency edge, from types.ts (`DependencyType`). -/
inductive DependencyType where
  | blocks
  | related
  deriving DecidableEq

/-- a dependency edge, from types.ts (`WorkstreamDependency`). -/
structure WorkstreamDependency where
  fromTaskUuid : String
  toTaskUuid : String
  type : DependencyType
  deriving DecidableEq

/-- a workstream record, from types.ts (`Workstream`). -/
structure Workstream where
  uuid : String
  title : String
  description : String
  tasks : List String
  dependencies : List WorkstreamDependency
  deriving DecidableEq

/-- the persistent state the service operations read and write: the task
store (as the list of known task uuids, which is all `loadTasks` is used for
by the workstream service) and the workstream store. -/
structure Storage where
  taskUuids : List String
  workstreams : List Workstream
  deriving DecidableEq

/-- typed errors corresponding to the `throw new Error(...)` sites of the
workstream service and task service. -/
inductive WsError where
  | danglingTask (wsUuid taskUuid : String)
  | danglingDepFrom (wsUuid taskUuid : String)
  | danglingDepTo (wsUuid taskUuid : String)
  | workstreamNotFound (wsUuid : String)
  | taskAlreadyInOtherWorkstream (taskUuid otherWsUuid : String)
  | taskNotInWorkstream (taskUuid wsUuid : String)
  | cannotConnectSelf
  deriving DecidableEq

/-- dependency reference check of `validateWorkstreamTaskReferences`:
for each dependency, first the `fromTaskUuid` then the `toTaskUuid` is
checked against the known task uuids. -/
def findDepError (wsUuid : String) (known : List String) :
    List WorkstreamDependency → Option WsError
  | [] => none
  | d :: ds =>
    if d.fromTaskUuid ∈ known then
      if d.toTaskUuid ∈ known then findDepError wsUuid known ds
      else some (.danglingDepTo wsUuid d.toTaskUuid)
    else some (.danglingDepFrom wsUuid d.fromTaskUuid)

/-- task reference check of `validateWorkstreamTaskReferences` for one
workstream: first all entries of the `tasks` array, then the dependencies. -/
def validateWorkstream (known : List String) (w : Workstream) : Option WsError :=
  match w.tasks.find? (fun t => !(known.contains t)) with
  | some t => some (.danglingTask w.uuid t)
  | none => findDepError w.uuid known w.dependencies

/-- `validateWorkstreamTaskReferences`: returns the first dangling-reference
error over all workstreams, or `none`. -/
def validateAll (known : List String) : List Workstream → Option WsError
  | [] => none
  | w :: ws =>
    match validateWorkstream known w with
    | some e => some e
    | none => validateAll known ws

/-- `loadAndValidateWorkstreams`: load the workstream store and validate all
task references against the task store. -/
def loadAndValidateWorkstreams (st : Storage) : Except WsError (List Workstream) :=
  match validateAll st.taskUuids st.workstreams with
  | some e => .error e
  | none => .ok st.workstreams

/-- update the first workstream whose uuid matches (the object that
`Array.prototype.find` returns and the service mutates in place). -/
def updateFirstWs (wsUuid : String) (f : Workstream → Workstream) :
    List Workstream → List Workstream
  | [] => []
  | w :: ws => if w.uuid == wsUuid then f w :: ws else w :: updateFirstWs wsUuid f ws

/-- `addTaskToWorkstream` from workstream-service.ts. -/
def addTaskToWorkstream (st : Storage) (wsUuid taskUuid : String) :
    Except WsError Storage :=
  match loadAndValidateWorkstreams st with
  | .error e => .error e
  | .ok workstreams =>
    match workstreams.find? (fun w => w.uuid == wsUuid) with
    | none => .error (.workstreamNotFound wsUuid)
    | some w =>
      match workstreams.find? (fun x => x.uuid != wsUuid && x.tasks.contains taskUuid) with
      | some other => .error (.taskAlreadyInOtherWorkstream taskUuid other.uuid)
      | none =>
        if taskUuid ∈ w.tasks then .ok st
        else
          let ws' := updateFirstWs wsUuid
            (fun v => { v with tasks := v.tasks ++ [taskUuid] }) st.workstreams
          .ok { st with workstreams := ws' }

/-- `removeTaskFromWorkstream` from workstream-service.ts. -/
def removeTaskFromWorkstream (st : Storage) (wsUuid taskUuid : String) :
    Except WsError Storage :=
  match loadAndValidateWorkstreams st with
  | .error e => .error e
  | .ok workstreams =>
    match workstreams.find? (fun w => w.uuid == wsUuid) with
    | none => .error (.workstreamNotFound wsUuid)
    | some _ =>
      let ws' := updateFirstWs wsUuid
        (fun v =>
          { v with
            tasks := v.tasks.filter (fun t => !(t == taskUuid)),
            dependencies := v.dependencies.filter
              (fun d => !(d.fromTaskUuid == taskUuid) && !(d.toTaskUuid == taskUuid)) })
        st.workstreams
      .ok { st with workstreams := ws' }

/-- `addDependency` from workstream-service.ts. -/
def addDependency (st : Storage) (wsUuid fromTaskUuid toTaskUuid : String)
    (ty : DependencyType) : Except WsError Storage :=
  match loadAndValidateWorkstreams st with
  | .error e => .error e
  | .ok workstreams =>
    match workstreams.find? (fun w => w.uuid == wsUuid) with
    | none => .error (.workstreamNotFound wsUuid)
    | some w =>
      if fromTaskUuid ∈ w.tasks then
        if toTaskUuid ∈ w.tasks then
          match w.dependencies.find?
              (fun d => d.fromTaskUuid == fromTaskUuid && d.toTaskUuid == toTaskUuid) with
          | some _ => .ok st
          | none =>
            let ws' := updateFirstWs wsUuid
              (fun v =>
                { v with dependencies := v.dependencies ++ [⟨fromTaskUuid, toTaskUuid, ty⟩] })
              st.workstreams
            .ok { st with workstreams := ws' }
        else .error (.taskNotInWorkstream toTaskUuid wsUuid)
      else .error (.taskNotInWorkstream fromTaskUuid wsUuid)

/-- uuid generation of `createWorkstream` (`crypto.randomUUID`), modelled
deterministically: the generated uuid is strictly longer than every stored
workstream uuid, hence fresh (this mirrors the source's reliance on global
uniqueness of random UUIDs). -/
def freshUuid (st : Storage) : String :=
  st.workstreams.foldl (fun acc w => acc ++ w.uuid) "" ++ "x"

/-- `createWorkstream` from workstream-file-storage.ts: build a workstream
with a fresh uuid and append it to the store (`addWorkstream`); the create
callbacks only notify the UI and do not touch storage. -/
def createWorkstream (st : Storage) (title description : String) :
    Storage × Workstream :=
  let w : Workstream := ⟨freshUuid st, title, description, [], []⟩
  ({ st with workstreams := st.workstreams ++ [w] }, w)

/-- an awaited `addTaskToWorkstream` call inside `connectTasks`: a thrown
error propagates, leaving the store at its current state. -/
def runAddTask (st : Storage) (wsUuid taskUuid : String) : Storage × Option WsError :=
  match addTaskToWorkstream st wsUuid taskUuid with
  | .error e => (st, some e)
  | .ok st1 => (st1, none)

/-- sequencing of awaited calls inside `connectTasks`: a thrown error aborts
the remaining steps (but does not roll back already persisted ones). -/
def andThen (p : Storage × Option WsError)
    (f : Storage → Storage × Option WsError) : Storage × Option WsError :=
  match p with
  | (st1, some e) => (st1, some e)
  | (st1, none) => f st1

theorem andThen_none (st : Storage) (f : Storage → Storage × Option WsError) :
    andThen (st, none) f = f st := rfl

theorem andThen_some (st : Storage) (e : WsError)
    (f : Storage → Storage × Option WsError) :
    andThen (st, some e) f = (st, some e) := rfl

/-- tail of `connectTasks` from workstream-task-service.ts, operating on the
stale `finalWorkstream` snapshot taken before any mutation (the source keeps
using the object loaded at the start while the nested service calls reload
the store).  Returns the storage as left behind by the last completed store
together with the error, if any. -/
def connectFinish (st : Storage) (finalWs : Workstream)
    (sourceId targetId : String) (ty : DependencyType) : Storage × Option WsError :=
  andThen
    (if sourceId ∈ finalWs.tasks then (st, none)
     else runAddTask st finalWs.uuid sourceId)
    (fun st1 =>
      andThen
        (if targetId ∈ finalWs.tasks then (st1, none)
         else runAddTask st1 finalWs.uuid targetId)
        (fun st2 =>
          match finalWs.dependencies.find?
              (fun d => d.fromTaskUuid == sourceId && d.toTaskUuid == targetId) with
          | some _ => (st2, none)
          | none =>
            match addDependency st2 finalWs.uuid sourceId targetId ty with
            | .error e => (st2, some e)
            | .ok st3 => (st3, none)))

/-- `connectTasks` from workstream-task-service.ts (the `tasks` parameter of
the source is unused by its body and therefore omitted). -/
def connectTasksRun (st : Storage) (sourceId targetId : String)
    (ty : DependencyType) : Storage × Option WsError :=
  if sourceId == targetId then (st, some .cannotConnectSelf)
  else
    let workstreams := st.workstreams
    let sourceWs? := workstreams.find? (fun ws => ws.tasks.contains sourceId)
    let targetWs? := workstreams.find? (fun ws => ws.tasks.contains targetId)
    let chosen : Storage × Workstream :=
      match sourceWs?, targetWs? with
      | none, none => createWorkstream st "" ""
      | some sws, none => (st, sws)
      | none, some tws => (st, tws)
      | some sws, some _ => (st, sws)
    connectFinish chosen.1 chosen.2 sourceId targetId ty

/-! ### JavaScript `Map`/`Set` model

A JS `Map` is an insertion-ordered association list with unique keys:
`mget` is `Map.get`, `mset` is `Map.set` (update in place, else append).
A JS `Set` of strings is a duplicate-free insertion-ordered list. -/

/-- JS `Map.get`. -/
def mget (m : List (String × α)) (k : String) : Option α :=
  (m.find? (fun p => p.1 == k)).map Prod.snd

/-- JS `Map.set`: overwrite the value at an existing key in place (the first
occurrence — keys are unique because maps are only built through `mset`),
otherwise append the binding. -/
def mset (m : List (String × α)) (k : String) (v : α) : List (String × α) :=
  match m with
  | [] => [(k, v)]
  | p :: m' => if p.1 == k then (p.1, v) :: m' else p :: mset m' k v

/-- `adjList.get(k)?.push(v)`: append `v` to the array stored at `k`; a
missing key is a silent no-op (optional chaining). -/
def mpush (m : List (String × List String)) (k v : String) :
    List (String × List String) :=
  match mget m k with
  | none => m
  | some l => mset m k (l ++ [v])

/-- JS `Set.add` on an ordered duplicate-free list. -/
def sadd (l : List String) (x : String) : List String :=
  if x ∈ l then l else l ++ [x]

/-- `adjList.get(k)?.add(v)` for `Map<string, Set<string>>`. -/
def msetAdd (m : List (String × List String)) (k v : String) :
    List (String × List String) :=
  match mget m k with
  | none => m
  | some s => mset m k (sadd s v)

/-- successors listed in an adjacency map: `adjList.get(node) || []`. -/
def succsOf (adj : List (String × List String)) (n : String) : List String :=
  (mget adj n).getD []

/-! ### `wouldCreateCycle` from workstream-service.ts -/

/-- `for (const task of workstream.tasks) adjList.set(task, [])`. -/
def initAdj (tasks : List String) : List (String × List String) :=
  tasks.foldl (fun m t => mset m t []) []

/-- `for (const dep of dependencies) adjList.get(dep.fromTaskUuid)?.push(dep.toTaskUuid)`. -/
def depsAdj (deps : List WorkstreamDependency) (m : List (String × List String)) :
    List (String × List String) :=
  deps.foldl (fun acc d => mpush acc d.fromTaskUuid d.toTaskUuid) m

/-- the `for (const neighbor of neighbors)` loop inside `hasCycle`, with the
recursive call abstracted as `f` (state: the `visited` and `recStack` sets,
threaded in mutation order; an early `return true` stops the loop). -/
def neighborsLoop
    (f : List String → List String → String → Bool × List String × List String) :
    List String → List String → List String → Bool × List String × List String
  | vis, stk, [] => (false, vis, stk)
  | vis, stk, n :: ns =>
    if n ∈ vis then
      if n ∈ stk then (true, vis, stk) else neighborsLoop f vis stk ns
    else
      match f vis stk n with
      | (true, v, r) => (true, v, r)
      | (false, v, r) => if n ∈ r then (true, v, r) else neighborsLoop f v r ns

/-- the recursive `hasCycle` closure of `wouldCreateCycle`: fuelled recursion
(the recursion depth is bounded by the number of distinct reachable nodes, so
the fuel passed by `wouldCreateCycle` is never exhausted; see the fuel
lemmas below).  Returns the result together with the final `visited` and
`recStack` sets. -/
def hasCycleAux (adj : List (String × List String)) :
    Nat → List String → List String → String → Bool × List String × List String
  | 0, vis, stk, _ => (false, vis, stk)
  | fuel + 1, vis, stk, node =>
    if node ∈ vis then (false, vis, stk.erase node)
    else
      match neighborsLoop (hasCycleAux adj fuel)
          (vis ++ [node]) (stk ++ [node]) (succsOf adj node) with
      | (true, v, r) => (true, v, r)
      | (false, v, r) => (false, v, r.erase node)

/-- `wouldCreateCycle` from workstream-service.ts: build the adjacency list,
add the proposed edge, and run the DFS seeded from every task (`visited` and
`recStack` are cleared between seeds). -/
def wouldCreateCycle (st : Storage) (wsUuid fromTaskUuid toTaskUuid : String) :
    Except WsError Bool :=
  match loadAndValidateWorkstreams st with
  | .error e => .error e
  | .ok workstreams =>
    match workstreams.find? (fun w => w.uuid == wsUuid) with
    | none => .error (.workstreamNotFound wsUuid)
    | some w =>
      let adj := mpush (depsAdj w.dependencies (initAdj w.tasks)) fromTaskUuid toTaskUuid
      let fuel := w.tasks.length + w.dependencies.length + 2
      .ok (w.tasks.any (fun s => (hasCycleAux adj fuel [] [] s).1))

/-! ### `getTopologicalSort` from workstream-service.ts -/

/-- `for (const task of workstream.tasks) inDegree.set(task, 0)`. -/
def initIndeg (tasks : List String) : List (String × Int) :=
  tasks.foldl (fun m t => mset m t 0) []

/-- `inDegree.set(dep.toTaskUuid, (inDegree.get(dep.toTaskUuid) || 0) + 1)`
for every dependency. -/
def bumpIndeg (deps : List WorkstreamDependency) (m : List (String × Int)) :
    List (String × Int) :=
  deps.foldl (fun acc d => mset acc d.toTaskUuid ((mget acc d.toTaskUuid).getD 0 + 1)) m

/-- the `for (const neighbor of neighbors)` body of Kahn's algorithm:
decrement the neighbor's in-degree and enqueue it on reaching zero. -/
def processNeighbors : List (String × Int) → List String → List String →
    List (String × Int) × List String
  | indeg, queue, [] => (indeg, queue)
  | indeg, queue, nb :: nbs =>
    let nd := (mget indeg nb).getD 0 - 1
    let indeg' := mset indeg nb nd
    let queue' := if nd == 0 then queue ++ [nb] else queue
    processNeighbors indeg' queue' nbs

/-- the `while (queue.length > 0)` loop of `getTopologicalSort` (each
iteration pops one task and appends it to the result, so the number of
iterations is bounded by the number of distinct tasks and the fuel passed by
`getTopologicalSort` is never exhausted). -/
def kahnLoop (adj : List (String × List String)) :
    Nat → List (String × Int) → List String → List String → List String
  | 0, _, _, result => result
  | fuel + 1, indeg, queue, result =>
    match queue with
    | [] => result
    | t :: rest =>
      let step := processNeighbors indeg rest (succsOf adj t)
      kahnLoop adj fuel step.1 step.2 (result ++ [t])

/-- `getTopologicalSort` from workstream-service.ts: Kahn's algorithm;
returns `none` when fewer nodes were emitted than the workstream has tasks. -/
def getTopologicalSort (st : Storage) (wsUuid : String) :
    Except WsError (Option (List String)) :=
  match loadAndValidateWorkstreams st with
  | .error e => .error e
  | .ok workstreams =>
    match workstreams.find? (fun w => w.uuid == wsUuid) with
    | none => .error (.workstreamNotFound wsUuid)
    | some w =>
      let adj := depsAdj w.dependencies (initAdj w.tasks)
      let indeg := bumpIndeg w.dependencies (initIndeg w.tasks)
      let queue0 := (indeg.filter (fun p => p.2 == 0)).map Prod.fst
      let result := kahnLoop adj (w.tasks.length + 1) indeg queue0 []
      if result.length == w.tasks.length then .ok (some result) else .ok none

/-! ### `calculateDAGPositions` (the DAG positioning module)

Coordinates are modelled as exact rationals in lowest terms (`Coord`); the
JS float literals `0.3` and `0.5` are modelled as the exact rationals `3/10`
and `1/2` (the claims verified below only involve coordinate computations in
which no inexact float rounding occurs). -/

/-- an exact rational number in lowest terms with positive denominator,
modelling a JS number of the layout computation. -/
structure Coord where
  num : Int
  den : Nat
  deriving DecidableEq

/-- build a `Coord` in lowest terms from numerator and (positive)
denominator. -/
def qmk (n : Int) (d : Nat) : Coord :=
  let g := n.natAbs.gcd d
  if g = 0 then ⟨0, 1⟩ else ⟨n / (g : Int), d / g⟩

/-- a natural number as a `Coord`. -/
def natQ (n : Nat) : Coord := ⟨(n : Int), 1⟩

def qAdd (a b : Coord) : Coord :=
  qmk (a.num * (b.den : Int) + b.num * (a.den : Int)) (a.den * b.den)

def qSub (a b : Coord) : Coord :=
  qmk (a.num * (b.den : Int) - b.num * (a.den : Int)) (a.den * b.den)

def qMul (a b : Coord) : Coord := qmk (a.num * b.num) (a.den * b.den)

/-- division by a positive natural number. -/
def qDivNat (a : Coord) (n : Nat) : Coord := qmk a.num (a.den * n)

/-- value order on coordinates (denominators are positive). -/
def qLt (a b : Coord) : Prop := a.num * (b.den : Int) < b.num * (a.den : Int)

/-- `Math.max` on coordinates. -/
def qMax (a b : Coord) : Coord :=
  if a.num * (b.den : Int) ≤ b.num * (a.den : Int) then b else a

/-- a layout input node (`{ id, label }`). -/
structure LNode where
  id : String
  label : String
  deriving DecidableEq

/-- a layout input edge (`{ source, target }`). -/
structure LEdge where
  source : String
  target : String
  deriving DecidableEq

instance (a b : Coord) : Decidable (qLt a b) :=
  inferInstanceAs (Decidable (_ < _))

/-- a computed position (`{ x, y }`). -/
structure LPos where
  x : Coord
  y : Coord
  deriving DecidableEq

/-- the single layout failure: the `throw new Error("Cycle detected in task
dependencies involving nodes: ...")` site, carrying the unprocessed node
ids. -/
inductive LayoutError where
  | cycleDetected (remaining : List String)
  deriving DecidableEq

/-- the `nodeSpacing` constant of `calculateDAGPositions`. -/
def nodeSpacing : Coord := ⟨250, 1⟩

/-- the `levelSpacing` constant of `calculateDAGPositions`. -/
def levelSpacing : Coord := ⟨50, 1⟩

/-- the `componentSpacing` constant of `calculateDAGPositions`. -/
def componentSpacing : Coord := ⟨50, 1⟩

/-- forward adjacency (`Map<string, Set<string>>`): every node id gets an
empty set, then `adjacencyList.get(edge.source)?.add(edge.target)`. -/
def layoutAdj (nodes : List LNode) (edges : List LEdge) :
    List (String × List String) :=
  edges.foldl (fun m e => msetAdd m e.source e.target)
    (nodes.foldl (fun m n => mset m n.id []) [])

/-- reverse adjacency: `reverseAdjacencyList.get(edge.target)?.add(edge.source)`. -/
def layoutRevAdj (nodes : List LNode) (edges : List LEdge) :
    List (String × List String) :=
  edges.foldl (fun m e => msetAdd m e.target e.source)
    (nodes.foldl (fun m n => mset m n.id []) [])

/-- iterate a dfs call over a neighbor set, threading `(visited, component)`. -/
def dfsList (f : List String → List String → String → List String × List String) :
    List String → List String → List String → List String × List String
  | vis, comp, [] => (vis, comp)
  | vis, comp, n :: ns =>
    let s := f vis comp n
    dfsList f s.1 s.2 ns

/-- the component dfs of `calculateDAGPositions`: mark the node, append it to
the current component, then recurse into forward and reverse neighbors (the
fuel passed by `layoutComponents` bounds the recursion depth and is never
exhausted, see the fuel lemmas below). -/
def dfsComp (adj radj : List (String × List String)) :
    Nat → List String → List String → String → List String × List String
  | 0, vis, comp, _ => (vis, comp)
  | fuel + 1, vis, comp, nodeId =>
    if nodeId ∈ vis then (vis, comp)
    else
      let s1 := dfsList (dfsComp adj radj fuel)
        (vis ++ [nodeId]) (comp ++ [nodeId]) (succsOf adj nodeId)
      dfsList (dfsComp adj radj fuel) s1.1 s1.2 (succsOf radj nodeId)

/-- the connected-component partition of `calculateDAGPositions`: run the dfs
from every not-yet-visited node, collecting components in discovery order. -/
def layoutComponents (nodes : List LNode) (edges : List LEdge) :
    List (List String) :=
  let adj := layoutAdj nodes edges
  let radj := layoutRevAdj nodes edges
  let fuel := nodes.length + 2 * edges.length + 2
  (nodes.foldl
    (fun s n =>
      if n.id ∈ s.1 then s
      else
        let r := dfsComp adj radj fuel s.1 [] n.id
        (r.1, s.2 ++ [r.2]))
    (([], []) : List String × List (List String))).2

/-- per-component directed adjacency (as sets) and in-degrees (per edge),
restricted to edges with both endpoints in the component. -/
def componentMaps (component : List String) (edges : List LEdge) :
    List (String × List String) × List (String × Int) :=
  edges.foldl
    (fun s e =>
      if e.source ∈ component ∧ e.target ∈ component then
        (msetAdd s.1 e.source e.target,
         mset s.2 e.target ((mget s.2 e.target).getD 0 + 1))
      else s)
    (component.foldl (fun s t => (mset s.1 t [], mset s.2 t (0 : Int))) (([], [])))

/-- one pass of the inner `for (let i = 0; i < levelSize; i++)` loop over a
whole level: pop every node of the level and process its neighbors,
collecting the next queue. -/
def processLevel (adj : List (String × List String)) :
    List (String × Int) → List String → List String →
    List (String × Int) × List String
  | indeg, pushed, [] => (indeg, pushed)
  | indeg, pushed, n :: ns =>
    let s := processNeighbors indeg pushed (succsOf adj n)
    processLevel adj s.1 s.2 ns

/-- the levelled Kahn loop of `calculateDAGPositions`: each `while` iteration
turns the entire current queue into one level (the level is nonempty in this
branch, so the source's `if (currentLevel.length > 0)` guard always fires).
Each iteration emits at least one node and nodes are enqueued at most once,
so the fuel passed by `layoutComponent` is never exhausted. -/
def levelsLoop (adj : List (String × List String)) :
    Nat → List (String × Int) → List String → List (List String) →
    List (List String)
  | 0, _, _, levels => levels
  | fuel + 1, indeg, queue, levels =>
    match queue with
    | [] => levels
    | q :: qs =>
      let s := processLevel adj indeg [] (q :: qs)
      levelsLoop adj fuel s.1 s.2 (levels ++ [q :: qs])

/-- position every node of one level (`level.forEach((nodeId, nodeIndex))`). -/
def placeNodes (isChain : Bool) (baseY startX : Coord) (levelIndex levelLen : Nat) :
    Nat → List String → List (String × LPos) → List (String × LPos)
  | _, [], positions => positions
  | nodeIndex, n :: ns, positions =>
    let yPos : Coord :=
      if isChain then baseY
      else
        let levelY := qAdd baseY (qMul (qMul (natQ levelIndex) levelSpacing) (qmk 3 10))
        let offsetY : Coord :=
          if levelLen > 1 then
            qMul (qSub (natQ nodeIndex) (qDivNat (qSub (natQ levelLen) (natQ 1)) 2))
              (qMul nodeSpacing (qmk 1 2))
          else natQ 0
        qAdd levelY offsetY
    placeNodes isChain baseY startX levelIndex levelLen (nodeIndex + 1) ns
      (mset positions n ⟨startX, yPos⟩)

/-- position every level (`levels.forEach((level, levelIndex))`);
`startX = levelIndex * nodeSpacing`. -/
def placeLevels (isChain : Bool) (baseY : Coord) :
    Nat → List (List String) → List (String × LPos) → List (String × LPos)
  | _, [], positions => positions
  | levelIndex, lv :: lvs, positions =>
    let startX : Coord := qMul (natQ levelIndex) nodeSpacing
    placeLevels isChain baseY (levelIndex + 1) lvs
      (placeNodes isChain baseY startX levelIndex lv.length 0 lv positions)

/-- lay out one component at the running vertical cursor `curY`, returning
the updated position map and the new cursor. -/
def layoutComponent (edges : List LEdge) (positions : List (String × LPos))
    (curY : Coord) (component : List String) :
    Except LayoutError (List (String × LPos) × Coord) :=
  match component with
  | [c] => .ok (mset positions c ⟨natQ 0, curY⟩, qAdd curY (natQ 100))
  | comp =>
    let maps := componentMaps comp edges
    let queue0 := comp.filter (fun n => mget maps.2 n == some (0 : Int))
    let levels := levelsLoop maps.1 (comp.length + 1) maps.2 queue0 []
    let processed := levels.flatten
    let remaining := comp.filter (fun n => n ∉ processed)
    if remaining.length > 0 then .error (.cycleDetected remaining)
    else
      let isSimpleChain := levels.all (fun lv => lv.length ≤ 1)
      let positions' := placeLevels isSimpleChain curY 0 levels positions
      let componentHeight : Coord :=
        if isSimpleChain then levelSpacing
        else qMax (qMul (qMul (natQ levels.length) levelSpacing) (qmk 3 10)) (natQ 100)
      .ok (positions', qAdd (qAdd curY componentHeight) componentSpacing)

/-- fold `layoutComponent` over the component list (`components.forEach`);
a thrown cycle error aborts the whole computation. -/
def layoutFold (edges : List LEdge) :
    List (List String) → List (String × LPos) → Coord →
    Except LayoutError (List (String × LPos))
  | [], positions, _ => .ok positions
  | c :: cs, positions, curY =>
    match layoutComponent edges positions curY c with
    | .error e => .error e
    | .ok s => layoutFold edges cs s.1 s.2

/-- `calculateDAGPositions` from the DAG positioning module. -/
def calculateDAGPositions (nodes : List LNode) (edges : List LEdge) :
    Except LayoutError (List (String × LPos)) :=
  if nodes.isEmpty then .ok []
  else layoutFold edges (layoutComponents nodes edges) [] (natQ 0)

/-! ### specification-level graph notions

`DepEdge deps a b` is the mathematical edge relation of a dependency list,
`GraphReach` its reflexive-transitive closure, and `GraphHasCycle` the
existence of a closed walk of length at least one.  The algorithm theorems
below relate the embedded code to these notions. -/

/-- the directed edge relation of a dependency list. -/
def DepEdge (deps : List WorkstreamDependency) (a b : String) : Prop :=
  ∃ d ∈ deps, d.fromTaskUuid = a ∧ d.toTaskUuid = b

/-- reachability along dependency edges (reflexive-transitive closure). -/
def GraphReach (deps : List WorkstreamDependency) : String → String → Prop :=
  Relation.ReflTransGen (DepEdge deps)

/-- the dependency graph contains a cycle: some edge `v → w` closes back to
`v` (equivalently, there is a closed walk of length at least one). -/
def GraphHasCycle (deps : List WorkstreamDependency) : Prop :=
  ∃ v w, DepEdge deps v w ∧ GraphReach deps w v

/-! ### toolkit lemmas -/

theorem find?_split {α} {p : α → Bool} :
    ∀ {l : List α} {w : α}, l.find? p = some w →
      ∃ l1 l2, l = l1 ++ w :: l2 ∧ (∀ x ∈ l1, p x = false) ∧ p w = true := by
  intro l
  induction l with
  | nil => intro w h; simp at h
  | cons a l ih =>
    intro w h
    rw [List.find?_cons] at h
    rcases hpa : p a with hfalse | htrue
    · rw [hpa] at h
      rcases ih h with ⟨l1, l2, rfl, hall, hw⟩
      exact ⟨a :: l1, l2, rfl, by simpa [hpa] using hall, hw⟩
    · rw [hpa] at h
      cases h
      exact ⟨[], l, rfl, by simp, hpa⟩

theorem updateFirstWs_append {u : String} (f : Workstream → Workstream)
    {l1 : List Workstream} {w : Workstream} (l2 : List Workstream)
    (h1 : ∀ x ∈ l1, (x.uuid == u) = false) (h2 : (w.uuid == u) = true) :
    updateFirstWs u f (l1 ++ w :: l2) = l1 ++ f w :: l2 := by
  induction l1 with
  | nil => simp [updateFirstWs, h2]
  | cons a l1 ih =>
    have ha := h1 a (by simp)
    simp only [List.cons_append, updateFirstWs, ha]
    simp only [Bool.false_eq_true, if_false, List.cons.injEq, true_and]
    exact ih (fun x hx => h1 x (by simp [hx]))

theorem findDepError_eq_none_iff {wu : String} {known : List String}
    {deps : List WorkstreamDependency} :
    findDepError wu known deps = none ↔
      ∀ d ∈ deps, d.fromTaskUuid ∈ known ∧ d.toTaskUuid ∈ known := by
  induction deps with
  | nil => simp [findDepError]
  | cons d ds ih =>
    by_cases h1 : d.fromTaskUuid ∈ known
    · by_cases h2 : d.toTaskUuid ∈ known
      · simp [findDepError, h1, h2, ih]
      · simp [findDepError, h1, h2]
    · simp [findDepError, h1]

theorem validateWorkstream_eq_none_iff {known : List String} {w : Workstream} :
    validateWorkstream known w = none ↔
      (∀ t ∈ w.tasks, t ∈ known) ∧
      (∀ d ∈ w.dependencies, d.fromTaskUuid ∈ known ∧ d.toTaskUuid ∈ known) := by
  unfold validateWorkstream
  rcases hfind : w.tasks.find? (fun t => !(known.contains t)) with _ | t
  · rw [List.find?_eq_none] at hfind
    simp only [Option.some.injEq, reduceCtorEq]
    rw [findDepError_eq_none_iff]
    constructor
    · intro h
      refine ⟨fun t ht => ?_, h⟩
      have := hfind t ht
      simpa using this
    · intro h; exact h.2
  · simp only [reduceCtorEq, false_iff, not_and]
    intro h1
    have hmem := List.mem_of_find?_eq_some hfind
    have hprop := List.find?_some hfind
    simp at hprop
    exact absurd (h1 t hmem) hprop

theorem validateAll_eq_none_iff {known : List String} {l : List Workstream} :
    validateAll known l = none ↔
      ∀ w ∈ l, (∀ t ∈ w.tasks, t ∈ known) ∧
        (∀ d ∈ w.dependencies, d.fromTaskUuid ∈ known ∧ d.toTaskUuid ∈ known) := by
  induction l with
  | nil => simp [validateAll]
  | cons w ws ih =>
    unfold validateAll
    rcases hw : validateWorkstream known w with _ | e
    · rw [validateWorkstream_eq_none_iff] at hw
      simp only [ih, List.mem_cons]
      constructor
      · intro h x hx
        rcases hx with rfl | hx
        · exact hw
        · exact h x hx
      · intro h x hx
        exact h x (Or.inr hx)
    · simp only [reduceCtorEq, false_iff, not_forall]
      refine ⟨w, by simp, ?_⟩
      intro hcon
      rw [← validateWorkstream_eq_none_iff] at hcon
      rw [hcon] at hw
      cases hw

theorem find?_append_cons {α} {p : α → Bool} {l1 l2 : List α} {x : α}
    (h1 : ∀ a ∈ l1, p a = false) (h2 : p x = true) :
    (l1 ++ x :: l2).find? p = some x := by
  induction l1 with
  | nil => simp [List.find?_cons, h2]
  | cons a l1 ih =>
    have ha := h1 a (by simp)
    rw [List.cons_append, List.find?_cons, ha]
    exact ih (fun b hb => h1 b (by simp [hb]))

theorem storage_eta (st : Storage) :
    ({ st with workstreams := st.workstreams } : Storage) = st := by
  cases st; rfl

/-! ### Claim C5: removeTaskFromWorkstream cascades and is idempotent -/

/-- C5: for a collection in which workstream `W` exists (and passes
reference validation), `removeTaskFromWorkstream` succeeds and returns a
collection in which the task is not a member of `W` and no dependency of `W`
touches it, while other members and untouched dependencies are preserved;
if the task was not a member (and, per data-model invariant 1, no dependency
of `W` touches a non-member), the collection is returned unchanged. -/
theorem C5_removeTask_cascades_and_idempotent
    (st : Storage) (wsUuid taskUuid : String) (w : Workstream)
    (hval : validateAll st.taskUuids st.workstreams = none)
    (hfind : st.workstreams.find? (fun x => x.uuid == wsUuid) = some w) :
    ∃ st' w',
      removeTaskFromWorkstream st wsUuid taskUuid = .ok st' ∧
      st'.workstreams.find? (fun x => x.uuid == wsUuid) = some w' ∧
      taskUuid ∉ w'.tasks ∧
      (∀ d ∈ w'.dependencies, d.fromTaskUuid ≠ taskUuid ∧ d.toTaskUuid ≠ taskUuid) ∧
      (∀ x, x ≠ taskUuid → (x ∈ w'.tasks ↔ x ∈ w.tasks)) ∧
      (∀ d, d.fromTaskUuid ≠ taskUuid → d.toTaskUuid ≠ taskUuid →
        (d ∈ w'.dependencies ↔ d ∈ w.dependencies)) ∧
      (taskUuid ∉ w.tasks →
        (∀ d ∈ w.dependencies, d.fromTaskUuid ∈ w.tasks ∧ d.toTaskUuid ∈ w.tasks) →
        st' = st) := by
  rcases find?_split hfind with ⟨l1, l2, hsplit, hl1, hw⟩
  have hupd := updateFirstWs_append (fun v =>
    { v with
      tasks := v.tasks.filter (fun t => !(t == taskUuid)),
      dependencies := v.dependencies.filter
        (fun d => !(d.fromTaskUuid == taskUuid) && !(d.toTaskUuid == taskUuid)) })
    l2 hl1 hw
  refine ⟨{ st with workstreams := l1 ++
      ({ w with
        tasks := w.tasks.filter (fun t => !(t == taskUuid)),
        dependencies := w.dependencies.filter
          (fun d => !(d.fromTaskUuid == taskUuid) && !(d.toTaskUuid == taskUuid)) } :
        Workstream) :: l2 },
    { w with
      tasks := w.tasks.filter (fun t => !(t == taskUuid)),
      dependencies := w.dependencies.filter
        (fun d => !(d.fromTaskUuid == taskUuid) && !(d.toTaskUuid == taskUuid)) },
    ?_, ?_, ?_, ?_, ?_, ?_, ?_⟩
  · simp only [removeTaskFromWorkstream, loadAndValidateWorkstreams, hval, hfind]
    rw [hsplit, hupd]
  · exact find?_append_cons hl1 hw
  · simp
  · intro d hd
    simp only [List.mem_filter, Bool.and_eq_true, Bool.not_eq_true'] at hd
    constructor
    · simpa using hd.2.1
    · simpa using hd.2.2
  · intro x hx
    simp [List.mem_filter, hx]
  · intro d h1 h2
    simp [List.mem_filter, h1, h2]
  · intro hmem hinv1
    have htasks : w.tasks.filter (fun t => !(t == taskUuid)) = w.tasks := by
      apply List.filter_eq_self.mpr
      intro t ht
      simp only [Bool.not_eq_true', beq_eq_false_iff_ne, ne_eq]
      intro hteq
      exact hmem (hteq ▸ ht)
    have hdeps : w.dependencies.filter
        (fun d => !(d.fromTaskUuid == taskUuid) && !(d.toTaskUuid == taskUuid)) =
        w.dependencies := by
      apply List.filter_eq_self.mpr
      intro d hd
      have h1 : d.fromTaskUuid ≠ taskUuid := by
        intro he; exact hmem (he ▸ (hinv1 d hd).1)
      have h2 : d.toTaskUuid ≠ taskUuid := by
        intro he; exact hmem (he ▸ (hinv1 d hd).2)
      simp [h1, h2]
    have hww : ({ w with
        tasks := w.tasks.filter (fun t => !(t == taskUuid)),
        dependencies := w.dependencies.filter
          (fun d => !(d.fromTaskUuid == taskUuid) && !(d.toTaskUuid == taskUuid)) } :
        Workstream) = w := by
      rw [htasks, hdeps]
    rw [hww, ← hsplit]

theorem exists_find?_of_mem {α} {p : α → Bool} {l : List α} {x : α}
    (hx : x ∈ l) (hp : p x = true) : ∃ y, l.find? p = some y ∧ p y = true := by
  induction l with
  | nil => cases hx
  | cons a l ih =>
    rcases hpa : p a with hfalse | htrue
    · rcases List.mem_cons.mp hx with rfl | hx'
      · rw [hp] at hpa; cases hpa
      · rcases ih hx' with ⟨y, hy, hpy⟩
        exact ⟨y, by rw [List.find?_cons, hpa]; exact hy, hpy⟩
    · exact ⟨a, by rw [List.find?_cons, hpa], hpa⟩

/-- concrete inputs used by the witnesses below. -/
def mkDep (a b : String) : WorkstreamDependency := ⟨a, b, .blocks⟩

def exWsABC : Workstream := ⟨"W", "", "", ["A", "B", "C"], [mkDep "A" "B", mkDep "B" "C"]⟩

def exStABC : Storage := ⟨["A", "B", "C"], [exWsABC]⟩

/-- C5 witness: the spec's example — removing `B` from a workstream with
tasks `{A,B,C}` and dependencies `A→B, B→C` yields tasks `{A,C}` and zero
dependencies. -/
theorem C5_removeTask_witness :
    (∃ st' w',
      removeTaskFromWorkstream exStABC "W" "B" = .ok st' ∧
      st'.workstreams.find? (fun x => x.uuid == "W") = some w' ∧
      "B" ∉ w'.tasks ∧
      (∀ d ∈ w'.dependencies, d.fromTaskUuid ≠ "B" ∧ d.toTaskUuid ≠ "B") ∧
      (∀ x, x ≠ "B" → (x ∈ w'.tasks ↔ x ∈ exWsABC.tasks)) ∧
      (∀ d, d.fromTaskUuid ≠ "B" → d.toTaskUuid ≠ "B" →
        (d ∈ w'.dependencies ↔ d ∈ exWsABC.dependencies)) ∧
      ("B" ∉ exWsABC.tasks →
        (∀ d ∈ exWsABC.dependencies,
          d.fromTaskUuid ∈ exWsABC.tasks ∧ d.toTaskUuid ∈ exWsABC.tasks) →
        st' = exStABC)) ∧
    removeTaskFromWorkstream exStABC "W" "B" =
      .ok ⟨["A", "B", "C"], [⟨"W", "", "", ["A", "C"], []⟩]⟩ :=
  ⟨C5_removeTask_cascades_and_idempotent exStABC "W" "B" exWsABC (by decide) (by decide),
   by rfl⟩

/-! ### Claim C6: addDependency is idempotent -/

/-- C6: with workstream `W` present and both endpoints members of `W`,
calling `addDependency` twice yields the same collection (hence the same
dependency list) as calling it once: the second call finds the existing
ordered pair and is a no-op, not an error. -/
theorem C6_addDependency_idempotent
    (st : Storage) (wsUuid a b : String) (w : Workstream) (ty : DependencyType)
    (hval : validateAll st.taskUuids st.workstreams = none)
    (hfind : st.workstreams.find? (fun x => x.uuid == wsUuid) = some w)
    (ha : a ∈ w.tasks) (hb : b ∈ w.tasks) :
    ∃ st1, addDependency st wsUuid a b ty = .ok st1 ∧
      addDependency st1 wsUuid a b ty = .ok st1 := by
  rcases find?_split hfind with ⟨l1, l2, hsplit, hl1, hw⟩
  rcases hex : w.dependencies.find?
      (fun d => d.fromTaskUuid == a && d.toTaskUuid == b) with _ | d0
  · -- no existing pair: the first call appends, the second finds it
    have hupd := updateFirstWs_append
      (fun v => { v with dependencies := v.dependencies ++ [⟨a, b, ty⟩] })
      l2 hl1 hw
    refine ⟨{ st with workstreams := l1 ++
        ({ w with dependencies := w.dependencies ++ [⟨a, b, ty⟩] } : Workstream) :: l2 },
      ?_, ?_⟩
    · simp only [addDependency, loadAndValidateWorkstreams, hval, hfind]
      simp only [ha, if_true, hb, hex]
      rw [hsplit, hupd]
    · have hval1 : validateAll st.taskUuids (l1 ++
          ({ w with dependencies := w.dependencies ++ [⟨a, b, ty⟩] } : Workstream) :: l2) =
          none := by
        rw [validateAll_eq_none_iff]
        rw [hsplit, validateAll_eq_none_iff] at hval
        intro x hx
        rcases List.mem_append.mp hx with hx1 | hx2
        · exact hval x (List.mem_append.mpr (Or.inl hx1))
        · rcases List.mem_cons.mp hx2 with rfl | hx2
          · have hvw := hval w (List.mem_append.mpr (Or.inr (by simp)))
            refine ⟨hvw.1, ?_⟩
            intro d hd
            rcases List.mem_append.mp hd with hd1 | hd2
            · exact hvw.2 d hd1
            · rcases List.mem_cons.mp hd2 with rfl | h
              · exact ⟨hvw.1 a ha, hvw.1 b hb⟩
              · cases h
          · exact hval x (List.mem_append.mpr (Or.inr (by simp [hx2])))
      have hfind1 : (l1 ++
          ({ w with dependencies := w.dependencies ++ [⟨a, b, ty⟩] } : Workstream) :: l2).find?
            (fun x => x.uuid == wsUuid) =
          some { w with dependencies := w.dependencies ++ [⟨a, b, ty⟩] } :=
        find?_append_cons hl1 hw
      simp only [addDependency, loadAndValidateWorkstreams, hval1, hfind1]
      simp only [ha, if_true, hb]
      rw [List.find?_append, hex]
      simp [List.find?_cons]
  · -- existing pair: both calls are no-ops
    refine ⟨st, ?_, ?_⟩ <;>
      simp [addDependency, loadAndValidateWorkstreams, hval, hfind, ha, hb, hex]

/-- C6 witness. -/
theorem C6_addDependency_idempotent_witness :
    ∃ st1, addDependency exStABC "W" "A" "C" .blocks = .ok st1 ∧
      addDependency st1 "W" "A" "C" .blocks = .ok st1 :=
  C6_addDependency_idempotent exStABC "W" "A" "C" exWsABC .blocks
    (by decide) (by decide) (by decide) (by decide)

/-! ### Claim C10: addDependency accepts self-loops -/

/-- C10: with workstream `W` present, task `A` a member and no existing
`(A, A)` pair, `addDependency(W, A, A)` succeeds and appends the self-loop
`A→A` to `W`'s dependency list, making the dependency graph cyclic; the
self-connection rejection exists only in `connectTasks`, which always fails
on equal endpoints without touching storage. -/
theorem C10_addDependency_self_loop
    (st : Storage) (wsUuid a : String) (w : Workstream) (ty : DependencyType)
    (hval : validateAll st.taskUuids st.workstreams = none)
    (hfind : st.workstreams.find? (fun x => x.uuid == wsUuid) = some w)
    (ha : a ∈ w.tasks)
    (hno : w.dependencies.find?
      (fun d => d.fromTaskUuid == a && d.toTaskUuid == a) = none) :
    ∃ st1, addDependency st wsUuid a a ty = .ok st1 ∧
      st1.workstreams.find? (fun x => x.uuid == wsUuid) =
        some { w with dependencies := w.dependencies ++ [⟨a, a, ty⟩] } ∧
      GraphHasCycle (w.dependencies ++ [⟨a, a, ty⟩]) ∧
      (∀ st2 ty2, connectTasksRun st2 a a ty2 = (st2, some .cannotConnectSelf)) := by
  rcases find?_split hfind with ⟨l1, l2, hsplit, hl1, hw⟩
  have hupd := updateFirstWs_append
    (fun v => { v with dependencies := v.dependencies ++ [⟨a, a, ty⟩] })
    l2 hl1 hw
  refine ⟨{ st with workstreams := l1 ++
      ({ w with dependencies := w.dependencies ++ [⟨a, a, ty⟩] } : Workstream) :: l2 },
    ?_, ?_, ?_, ?_⟩
  · simp only [addDependency, loadAndValidateWorkstreams, hval, hfind]
    simp only [ha, if_true, hno]
    rw [hsplit, hupd]
  · exact find?_append_cons hl1 hw
  · exact ⟨a, a, ⟨⟨a, a, ty⟩, by simp, rfl, rfl⟩, Relation.ReflTransGen.refl⟩
  · intro st2 ty2
    simp [connectTasksRun]

/-- C10 witness. -/
theorem C10_addDependency_self_loop_witness :
    ∃ st1, addDependency exStABC "W" "A" "A" .blocks = .ok st1 ∧
      st1.workstreams.find? (fun x => x.uuid == "W") =
        some { exWsABC with dependencies := exWsABC.dependencies ++ [⟨"A", "A", .blocks⟩] } ∧
      GraphHasCycle (exWsABC.dependencies ++ [⟨"A", "A", .blocks⟩]) ∧
      (∀ st2 ty2, connectTasksRun st2 "A" "A" ty2 = (st2, some .cannotConnectSelf)) :=
  C10_addDependency_self_loop exStABC "W" "A" exWsABC .blocks
    (by decide) (by decide) (by decide) (by decide)

/-! ### Claim C1: connectTasks across two distinct workstreams -/

/-- concrete two-workstream collection: `S` in `w1`, `T` in `w2`. -/
def exStTwoWs : Storage :=
  ⟨["S", "T"], [⟨"w1", "", "", ["S"], []⟩, ⟨"w2", "", "", ["T"], []⟩]⟩

/-- C1 counterexample: with `S` in workstream `w1` and `T` in a different
workstream `w2`, `connectTasks(S, T)` does not succeed and does not move `T`:
it throws the `already belongs` error from `addTaskToWorkstream` and leaves
the collection unchanged (no removal cascade exists on this path). -/
theorem C1_counterexample :
    connectTasksRun exStTwoWs "S" "T" .blocks =
      (exStTwoWs, some (.taskAlreadyInOtherWorkstream "T" "w2")) ∧
    (connectTasksRun exStTwoWs "S" "T" .blocks).2 ≠ none := by
  constructor
  · rfl
  · intro h
    rw [show (connectTasksRun exStTwoWs "S" "T" .blocks).2 =
      some (.taskAlreadyInOtherWorkstream "T" "w2") from rfl] at h
    cases h

/-- C1 (amended): when the source task is found in workstream `W1` and the
target task in a workstream `W2` with a different uuid (and the target is no
member of `W1`), `connectTasks` selects the source's workstream but then
fails with the typed `already belongs` error raised by
`addTaskToWorkstream`; the collection is returned unchanged — the target is
not moved, no dependency is added, and no workstream is deleted. -/
theorem C1_connect_distinct_workstreams_fails
    (st : Storage) (s t : String) (w1 w2 : Workstream) (ty : DependencyType)
    (hval : validateAll st.taskUuids st.workstreams = none)
    (hs : st.workstreams.find? (fun ws => ws.tasks.contains s) = some w1)
    (ht : st.workstreams.find? (fun ws => ws.tasks.contains t) = some w2)
    (hne : w1.uuid ≠ w2.uuid)
    (htw1 : t ∉ w1.tasks) :
    ∃ otherUuid, connectTasksRun st s t ty =
      (st, some (.taskAlreadyInOtherWorkstream t otherUuid)) := by
  have hst : s ≠ t := by
    rintro rfl
    rw [hs] at ht
    cases ht
    exact hne rfl
  have hsw1 : s ∈ w1.tasks := by
    have := List.find?_some hs
    simpa using this
  have hmem2 : w2 ∈ st.workstreams := List.mem_of_find?_eq_some ht
  have htw2 : t ∈ w2.tasks := by
    have := List.find?_some ht
    simpa using this
  have hw2p : (fun x => x.uuid != w1.uuid && x.tasks.contains t) w2 = true := by
    simp only [Bool.and_eq_true, bne_iff_ne, ne_eq]
    exact ⟨fun h => hne h.symm, List.elem_iff.mpr htw2⟩
  rcases exists_find?_of_mem (p := fun x => x.uuid != w1.uuid && x.tasks.contains t)
    hmem2 hw2p with ⟨other, hother, hpother⟩
  have hmem1 : w1 ∈ st.workstreams := List.mem_of_find?_eq_some hs
  rcases exists_find?_of_mem (p := fun x => x.uuid == w1.uuid) hmem1 (by simp)
    with ⟨w1', hw1', _⟩
  refine ⟨other.uuid, ?_⟩
  have hbeq : (s == t) = false := beq_eq_false_iff_ne.mpr hst
  simp only [connectTasksRun, hbeq, Bool.false_eq_true, if_false, hs, ht]
  simp only [connectFinish, hsw1, if_true, htw1, if_false, andThen_none]
  simp only [runAddTask, addTaskToWorkstream, loadAndValidateWorkstreams, hval, hw1', hother]
  simp only [andThen_some]

/-- C1 witness for the amended claim. -/
theorem C1_connect_distinct_workstreams_fails_witness :
    ∃ otherUuid, connectTasksRun exStTwoWs "S" "T" .blocks =
      (exStTwoWs, some (.taskAlreadyInOtherWorkstream "T" otherUuid)) :=
  C1_connect_distinct_workstreams_fails exStTwoWs "S" "T"
    ⟨"w1", "", "", ["S"], []⟩ ⟨"w2", "", "", ["T"], []⟩ .blocks
    (by decide) (by decide) (by decide) (by decide) (by decide)

instance {ε α : Type} [DecidableEq ε] [DecidableEq α] : DecidableEq (Except ε α) :=
  fun a b =>
    match a, b with
    | .ok x, .ok y =>
      if h : x = y then isTrue (by rw [h]) else isFalse (fun hc => by cases hc; exact h rfl)
    | .error x, .error y =>
      if h : x = y then isTrue (by rw [h]) else isFalse (fun hc => by cases hc; exact h rfl)
    | .ok _, .error _ => isFalse (fun hc => by cases hc)
    | .error _, .ok _ => isFalse (fun hc => by cases hc)

/-! ### Claim C8: layout determinism -/

/-- C8: the layout computation is a pure, deterministic function of
`(nodes, edges)`: two calls with identical input produce identical
coordinate maps.  In this embedding the source's statefulness (JS `Map`/`Set`
iteration in insertion order, no hidden inputs) is fully captured, so the
computation is a function and determinism is definitional. -/
theorem C8_layout_deterministic (nodes : List LNode) (edges : List LEdge) :
    calculateDAGPositions nodes edges = calculateDAGPositions nodes edges := rfl

/-! ### Claim C9: simple-chain layout coordinates -/

/-- C9: for the simple chain `A→B→C`, the layout succeeds, all three nodes
share the same y-coordinate and have strictly increasing x-coordinates with
`x = level * nodeSpacing`, i.e. consecutive nodes exactly one horizontal
increment (250 = the configured node width plus level spacing) apart. -/
theorem C9_simple_chain_layout :
    ∃ pos, calculateDAGPositions
        [⟨"A", "A"⟩, ⟨"B", "B"⟩, ⟨"C", "C"⟩] [⟨"A", "B"⟩, ⟨"B", "C"⟩] = .ok pos ∧
      ∃ pa pb pc, mget pos "A" = some pa ∧ mget pos "B" = some pb ∧
        mget pos "C" = some pc ∧
        pa.y = pb.y ∧ pb.y = pc.y ∧
        pa.x = qMul (natQ 0) nodeSpacing ∧ pb.x = qMul (natQ 1) nodeSpacing ∧
        pc.x = qMul (natQ 2) nodeSpacing ∧
        qLt pa.x pb.x ∧ qLt pb.x pc.x ∧
        qSub pb.x pa.x = nodeSpacing ∧ qSub pc.x pb.x = nodeSpacing := by
  refine ⟨[("A", ⟨⟨0, 1⟩, ⟨0, 1⟩⟩), ("B", ⟨⟨250, 1⟩, ⟨0, 1⟩⟩), ("C", ⟨⟨500, 1⟩, ⟨0, 1⟩⟩)],
    by decide, ⟨⟨0, 1⟩, ⟨0, 1⟩⟩, ⟨⟨250, 1⟩, ⟨0, 1⟩⟩, ⟨⟨500, 1⟩, ⟨0, 1⟩⟩,
    by decide, by decide, by decide, rfl, rfl,
    by decide, by decide, by decide, by decide, by decide, by decide, by decide⟩

/-! ### Claim C7: cycle detection in the layout engine -/

/-- the edge relation of a layout input. -/
def LEdgeRel (edges : List LEdge) (a b : String) : Prop :=
  ∃ e ∈ edges, e.source = a ∧ e.target = b

/-- the layout input contains a directed cycle. -/
def LayoutHasCycle (edges : List LEdge) : Prop :=
  ∃ v w, LEdgeRel edges v w ∧ Relation.ReflTransGen (LEdgeRel edges) w v

/-- C7 counterexample: a single node with a self-loop is a directed cycle
within its (singleton) connected component, yet the layout computation does
not fail: singleton components are placed without running the cycle check,
so the self-loop is laid out successfully. -/
theorem C7_counterexample :
    LayoutHasCycle [(⟨"A", "A"⟩ : LEdge)] ∧
    calculateDAGPositions [⟨"A", "A"⟩] [⟨"A", "A"⟩] =
      .ok [("A", ⟨natQ 0, natQ 0⟩)] := by
  constructor
  · exact ⟨"A", "A", ⟨⟨"A", "A"⟩, by simp, rfl, rfl⟩, Relation.ReflTransGen.refl⟩
  · decide

/-! ### Claim C4: single-workstream-membership invariant -/

/-- the mutating operations quantified over by the claim. -/
inductive EngineOp where
  | addTask (wsUuid taskUuid : String)
  | connect (sourceId targetId : String) (ty : DependencyType)

/-- run one operation; a thrown error leaves the store at whatever the last
completed write was (`connectTasksRun` already reports that state, and the
single-write operations leave the store untouched on error). -/
def applyOp (st : Storage) : EngineOp → Storage
  | .addTask wsUuid taskUuid =>
    match addTaskToWorkstream st wsUuid taskUuid with
    | .ok st' => st'
    | .error _ => st
  | .connect s t ty => (connectTasksRun st s t ty).1

/-- run a sequence of operations. -/
def applyOps (st : Storage) : List EngineOp → Storage
  | [] => st
  | op :: ops => applyOps (applyOp st op) ops

/-- workstream uuids are pairwise distinct (the data model's stable
identifier assumption). -/
def UuidsNodup (st : Storage) : Prop :=
  (st.workstreams.map (fun w => w.uuid)).Nodup

/-- no task id is shared by two workstream records. -/
def MembershipUnique (st : Storage) : Prop :=
  ∀ w1 ∈ st.workstreams, ∀ w2 ∈ st.workstreams,
    ∀ t ∈ w1.tasks, t ∈ w2.tasks → w1 = w2

/-- a task id appears in the `tasks` of at most one workstream record. -/
def AtMostOneWorkstream (st : Storage) : Prop :=
  ∀ t : String, st.workstreams.countP (fun w => w.tasks.contains t) ≤ 1

/-- combined invariant carried through the operations. -/
def GoodState (st : Storage) : Prop := UuidsNodup st ∧ MembershipUnique st

theorem length_le_foldl_append (l : List Workstream) :
    ∀ acc : String, acc.length ≤ (l.foldl (fun a w => a ++ w.uuid) acc).length ∧
      ∀ w ∈ l, w.uuid.length ≤ (l.foldl (fun a w => a ++ w.uuid) acc).length := by
  induction l with
  | nil => intro acc; exact ⟨Nat.le_refl _, by simp⟩
  | cons x l ih =>
    intro acc
    have hx := ih (acc ++ x.uuid)
    refine ⟨?_, ?_⟩
    · calc acc.length ≤ (acc ++ x.uuid).length := by
            rw [String.length_append]; omega
        _ ≤ _ := hx.1
    · intro w hw
      rcases List.mem_cons.mp hw with rfl | hw'
      · calc w.uuid.length ≤ (acc ++ w.uuid).length := by
              rw [String.length_append]; omega
          _ ≤ _ := hx.1
      · exact hx.2 w hw'

/-- the modelled uuid generator never collides with a stored uuid. -/
theorem freshUuid_not_mem (st : Storage) :
    ∀ w ∈ st.workstreams, w.uuid ≠ freshUuid st := by
  intro w hw heq
  have h1 := (length_le_foldl_append st.workstreams "").2 w hw
  have h2 : (freshUuid st).length =
      (st.workstreams.foldl (fun a w => a ++ w.uuid) "").length + 1 := by
    unfold freshUuid
    rw [String.length_append]
    rfl
  rw [heq, h2] at h1
  omega

theorem two_le_countP {α} {p : α → Bool} {l : List α} {a b : α}
    (ha : a ∈ l) (hb : b ∈ l) (hab : a ≠ b) (hpa : p a = true) (hpb : p b = true) :
    2 ≤ l.countP p := by
  induction l with
  | nil => cases ha
  | cons c l ih =>
    rw [List.countP_cons]
    rcases List.mem_cons.mp ha with rfl | ha'
    · have hb' : b ∈ l := by
        rcases List.mem_cons.mp hb with rfl | h
        · exact absurd rfl hab
        · exact h
      have h1 : 0 < l.countP p := List.countP_pos_iff.mpr ⟨b, hb', hpb⟩
      rw [hpa, if_pos rfl]
      omega
    · rcases List.mem_cons.mp hb with rfl | hb'
      · have h1 : 0 < l.countP p := List.countP_pos_iff.mpr ⟨a, ha', hpa⟩
        rw [hpb, if_pos rfl]
        omega
      · have h2 := ih ha' hb'
        rcases hpc : p c with hf | ht
        · rw [if_neg (by simp)]
          omega
        · rw [if_pos rfl]
          omega

/-- value-level membership uniqueness follows from the claim's counting
hypothesis. -/
theorem membershipUnique_of_atMostOne {st : Storage}
    (h : AtMostOneWorkstream st) : MembershipUnique st := by
  intro w1 h1 w2 h2 t ht1 ht2
  by_contra hne
  have := two_le_countP (p := fun w => w.tasks.contains t) h1 h2 hne
    (List.elem_iff.mpr ht1) (List.elem_iff.mpr ht2)
  have hc := h t
  omega

theorem countP_split {α} {p : α → Bool} :
    ∀ {l : List α}, 2 ≤ l.countP p →
      ∃ (a b : α) (l1 l2 l3 : List α),
        l = l1 ++ a :: l2 ++ b :: l3 ∧ p a = true ∧ p b = true := by
  intro l
  induction l with
  | nil =>
    intro h
    rw [List.countP_nil] at h
    omega
  | cons c l ih =>
    intro h
    rw [List.countP_cons] at h
    rcases hpc : p c with hf | ht
    · rw [hpc, if_neg (by simp)] at h
      have h' : 2 ≤ l.countP p := by omega
      rcases ih h' with ⟨a, b, l1, l2, l3, rfl, hpa, hpb⟩
      exact ⟨a, b, c :: l1, l2, l3, rfl, hpa, hpb⟩
    · rw [hpc, if_pos rfl] at h
      have h1 : 0 < l.countP p := by omega
      rcases List.countP_pos_iff.mp h1 with ⟨b, hb, hpb⟩
      rcases List.append_of_mem hb with ⟨l2, l3, rfl⟩
      exact ⟨c, b, [], l2, l3, rfl, hpc, hpb⟩

/-- the counting form of the invariant follows from the combined
invariant. -/
theorem atMostOne_of_goodState {st : Storage} (h : GoodState st) :
    AtMostOneWorkstream st := by
  intro t
  by_contra hc
  push_neg at hc
  have h2 : 2 ≤ st.workstreams.countP (fun w => w.tasks.contains t) := hc
  rcases countP_split h2 with ⟨a, b, l1, l2, l3, hsplit, hpa, hpb⟩
  have hamem : a ∈ st.workstreams := by rw [hsplit]; simp
  have hbmem : b ∈ st.workstreams := by rw [hsplit]; simp
  have hta : t ∈ a.tasks := List.elem_iff.mp hpa
  have htb : t ∈ b.tasks := List.elem_iff.mp hpb
  have hab : a = b := h.2 a hamem b hbmem t hta htb
  have hnd := h.1
  unfold UuidsNodup at hnd
  rw [hsplit] at hnd
  simp only [List.map_append, List.map_cons] at hnd
  rcases List.nodup_append.mp hnd with ⟨_, _, hdisj⟩
  exact hdisj (a := a.uuid) (by simp) (by rw [hab]; simp)

/-- core preservation lemma: replacing the first workstream with uuid `u`
by a record with the same uuid whose tasks are either old tasks or tasks
belonging to no other workstream keeps the combined invariant. -/
theorem goodState_update_pointwise {st : Storage} {l1 l2 : List Workstream}
    {w w' : Workstream} {u : String}
    (hg : GoodState st) (hsplit : st.workstreams = l1 ++ w :: l2)
    (hl1 : ∀ x ∈ l1, (x.uuid == u) = false) (hwu : (w.uuid == u) = true)
    (huuid : w'.uuid = w.uuid)
    (htsub : ∀ t' ∈ w'.tasks, t' ∈ w.tasks ∨
      (∀ x ∈ st.workstreams, x.uuid ≠ u → t' ∉ x.tasks)) :
    GoodState { st with workstreams := l1 ++ w' :: l2 } := by
  have hwu' : w.uuid = u := by simpa using hwu
  have hnd0 := hg.1
  unfold UuidsNodup at hnd0
  rw [hsplit] at hnd0
  simp only [List.map_append, List.map_cons] at hnd0
  rcases List.nodup_append.mp hnd0 with ⟨hndl1, hndc, hdisj⟩
  have hwnotl2 : w.uuid ∉ l2.map (fun x => x.uuid) := (List.nodup_cons.mp hndc).1
  have hwnotl1 : w.uuid ∉ l1.map (fun x => x.uuid) := fun hmem => hdisj hmem (by simp)
  -- no old side workstream equals w (by uuid)
  have hside : ∀ x, x ∈ l1 ∨ x ∈ l2 → x.uuid ≠ w.uuid := by
    intro x hx heq
    rcases hx with hx | hx
    · have := hl1 x hx
      rw [heq, hwu'] at this
      simp at this
    · exact hwnotl2 (heq ▸ List.mem_map_of_mem (fun y => y.uuid) hx)
  -- a task of w' occurring in an old side workstream is impossible
  have hkey : ∀ x, x ∈ l1 ∨ x ∈ l2 → ∀ t' ∈ w'.tasks, t' ∈ x.tasks → False := by
    intro x hx t' ht' htx
    have hxold : x ∈ st.workstreams := by
      rw [hsplit]
      rcases hx with hx | hx
      · exact List.mem_append.mpr (Or.inl hx)
      · exact List.mem_append.mpr (Or.inr (List.mem_cons.mpr (Or.inr hx)))
    rcases htsub t' ht' with hold | hnowhere
    · have hwold : w ∈ st.workstreams := by rw [hsplit]; simp
      have := hg.2 w hwold x hxold t' hold htx
      exact hside x hx (this ▸ rfl)
    · exact hnowhere x hxold (fun he => hside x hx (he.trans hwu'.symm)) htx
  constructor
  · unfold UuidsNodup
    simp only [List.map_append, List.map_cons, huuid]
    apply List.nodup_append.mpr
    exact ⟨hndl1, hndc, hdisj⟩
  · intro w1 h1 w2 h2 t' ht1 ht2
    have hmem_cases : ∀ y, y ∈ ({ st with workstreams := l1 ++ w' :: l2 } :
        Storage).workstreams → y ∈ l1 ∨ y = w' ∨ y ∈ l2 := by
      intro y hy
      simp only at hy
      rcases List.mem_append.mp hy with hy | hy
      · exact Or.inl hy
      · rcases List.mem_cons.mp hy with rfl | hy
        · exact Or.inr (Or.inl rfl)
        · exact Or.inr (Or.inr hy)
    have hold_of_side : ∀ y, y ∈ l1 ∨ y ∈ l2 → y ∈ st.workstreams := by
      intro y hy
      rw [hsplit]
      rcases hy with hy | hy
      · exact List.mem_append.mpr (Or.inl hy)
      · exact List.mem_append.mpr (Or.inr (List.mem_cons.mpr (Or.inr hy)))
    rcases hmem_cases w1 h1 with hs1 | h1' | hs1
    · rcases hmem_cases w2 h2 with hs2 | h2' | hs2
      · exact hg.2 w1 (hold_of_side w1 (Or.inl hs1)) w2 (hold_of_side w2 (Or.inl hs2)) t' ht1 ht2
      · exact (hkey w1 (Or.inl hs1) t' (h2' ▸ ht2) ht1).elim
      · exact hg.2 w1 (hold_of_side w1 (Or.inl hs1)) w2 (hold_of_side w2 (Or.inr hs2)) t' ht1 ht2
    · rcases hmem_cases w2 h2 with hs2 | h2' | hs2
      · exact (hkey w2 (Or.inl hs2) t' (h1' ▸ ht1) ht2).elim
      · rw [h1', h2']
      · exact (hkey w2 (Or.inr hs2) t' (h1' ▸ ht1) ht2).elim
    · rcases hmem_cases w2 h2 with hs2 | h2' | hs2
      · exact hg.2 w1 (hold_of_side w1 (Or.inr hs1)) w2 (hold_of_side w2 (Or.inl hs2)) t' ht1 ht2
      · exact (hkey w1 (Or.inr hs1) t' (h2' ▸ ht2) ht1).elim
      · exact hg.2 w1 (hold_of_side w1 (Or.inr hs1)) w2 (hold_of_side w2 (Or.inr hs2)) t' ht1 ht2

/-- a successful `addTaskToWorkstream` preserves the combined invariant. -/
theorem addTask_good {st : Storage} {u t : String} (hg : GoodState st) :
    ∀ {st'}, addTaskToWorkstream st u t = .ok st' → GoodState st' := by
  intro st' h
  unfold addTaskToWorkstream loadAndValidateWorkstreams at h
  cases hval : validateAll st.taskUuids st.workstreams with
  | some e => simp only [hval] at h; cases h
  | none =>
    simp only [hval] at h
    cases hfind : st.workstreams.find? (fun x => x.uuid == u) with
    | none => simp only [hfind] at h; cases h
    | some w =>
      simp only [hfind] at h
      cases hother : st.workstreams.find?
          (fun x => x.uuid != u && x.tasks.contains t) with
      | some o => simp only [hother] at h; cases h
      | none =>
        simp only [hother] at h
        by_cases hmem : t ∈ w.tasks
        · rw [if_pos hmem] at h
          cases h
          exact hg
        · rw [if_neg hmem] at h
          rcases find?_split hfind with ⟨l1, l2, hsplit, hl1, hw⟩
          have hupd := updateFirstWs_append
            (fun v => { v with tasks := v.tasks ++ [t] }) l2 hl1 hw
          rw [hsplit, hupd] at h
          cases h
          refine goodState_update_pointwise hg hsplit hl1 hw rfl ?_
          intro t' ht'
          rcases List.mem_append.mp ht' with h1 | h2
          · exact Or.inl h1
          · rcases List.mem_cons.mp h2 with rfl | hc
            · refine Or.inr ?_
              intro x hx hxu hmemx
              have hx' := List.find?_eq_none.mp hother x hx
              simp only [Bool.and_eq_true, bne_iff_ne, ne_eq, not_and] at hx'
              exact (hx' hxu) (List.elem_iff.mpr hmemx)
            · cases hc

/-- a successful `addDependency` preserves the combined invariant. -/
theorem addDep_good {st : Storage} {u a b : String} {ty : DependencyType}
    (hg : GoodState st) :
    ∀ {st'}, addDependency st u a b ty = .ok st' → GoodState st' := by
  intro st' h
  unfold addDependency loadAndValidateWorkstreams at h
  cases hval : validateAll st.taskUuids st.workstreams with
  | some e => simp only [hval] at h; cases h
  | none =>
    simp only [hval] at h
    cases hfind : st.workstreams.find? (fun x => x.uuid == u) with
    | none => simp only [hfind] at h; cases h
    | some w =>
      simp only [hfind] at h
      by_cases hain : a ∈ w.tasks
      · rw [if_pos hain] at h
        by_cases hbin : b ∈ w.tasks
        · rw [if_pos hbin] at h
          cases hex : w.dependencies.find?
              (fun d => d.fromTaskUuid == a && d.toTaskUuid == b) with
          | some d => rw [hex] at h; cases h; exact hg
          | none =>
            rw [hex] at h
            rcases find?_split hfind with ⟨l1, l2, hsplit, hl1, hw⟩
            have hupd := updateFirstWs_append
              (fun v =>
                { v with dependencies := v.dependencies ++ [⟨a, b, ty⟩] })
              l2 hl1 hw
            rw [hsplit, hupd] at h
            cases h
            exact goodState_update_pointwise hg hsplit hl1 hw rfl
              (fun t' ht' => Or.inl ht')
        · rw [if_neg hbin] at h; cases h
      · rw [if_neg hain] at h; cases h

theorem runAddTask_good {st : Storage} {u t : String} (hg : GoodState st) :
    GoodState (runAddTask st u t).1 := by
  unfold runAddTask
  cases h : addTaskToWorkstream st u t with
  | error e => exact hg
  | ok st1 => exact addTask_good hg h

/-- `createWorkstream` preserves the combined invariant (the generated uuid
is fresh and the new workstream has no tasks). -/
theorem create_good {st : Storage} (hg : GoodState st) (ti de : String) :
    GoodState (createWorkstream st ti de).1 := by
  constructor
  · unfold UuidsNodup createWorkstream
    simp only [List.map_append, List.map_cons, List.map_nil]
    apply List.Nodup.append hg.1 (by simp)
    intro x hx hx2
    simp only [List.mem_singleton] at hx2
    rcases List.mem_map.mp hx with ⟨w, hw, rfl⟩
    exact freshUuid_not_mem st w hw hx2
  · intro w1 h1 w2 h2 t' ht1 ht2
    simp only [createWorkstream] at h1 h2
    rcases List.mem_append.mp h1 with h1' | h1'
    · rcases List.mem_append.mp h2 with h2' | h2'
      · exact hg.2 w1 h1' w2 h2' t' ht1 ht2
      · rcases List.mem_singleton.mp h2' with rfl
        cases ht2
    · rcases List.mem_singleton.mp h1' with rfl
      cases ht1

/-- `andThen` preserves any predicate preserved by both sides. -/
theorem andThen_good {p : Storage × Option WsError}
    {f : Storage → Storage × Option WsError}
    (hp : GoodState p.1) (hf : ∀ st, GoodState st → GoodState (f st).1) :
    GoodState (andThen p f).1 := by
  rcases p with ⟨st1, e1⟩
  cases e1 with
  | some e => exact hp
  | none => exact hf st1 hp

theorem if_runAddTask_good {st : Storage} {c : Prop} [Decidable c] {u x : String}
    (hg : GoodState st) :
    GoodState ((if c then (st, (none : Option WsError))
      else runAddTask st u x)).1 := by
  by_cases hc : c
  · rw [if_pos hc]; exact hg
  · rw [if_neg hc]; exact runAddTask_good hg

/-- `connectFinish` leaves the store in an invariant-preserving state, also
when an intermediate step throws. -/
theorem connectFinish_good {st : Storage} {fw : Workstream} {s t : String}
    {ty : DependencyType} (hg : GoodState st) :
    GoodState (connectFinish st fw s t ty).1 := by
  unfold connectFinish
  apply andThen_good (if_runAddTask_good hg)
  intro st1 hg1
  apply andThen_good (if_runAddTask_good hg1)
  intro st2 hg2
  cases hex : fw.dependencies.find?
      (fun d => d.fromTaskUuid == s && d.toTaskUuid == t) with
  | some d => exact hg2
  | none =>
    cases hdep : addDependency st2 fw.uuid s t ty with
    | error e => exact hg2
    | ok st3 => exact addDep_good hg2 hdep

/-- `connectTasks` leaves the store in an invariant-preserving state. -/
theorem connectTasksRun_good {st : Storage} {s t : String} {ty : DependencyType}
    (hg : GoodState st) : GoodState (connectTasksRun st s t ty).1 := by
  unfold connectTasksRun
  by_cases heq : (s == t) = true
  · rw [if_pos heq]; exact hg
  · rw [if_neg heq]
    cases hsw : st.workstreams.find? (fun ws => ws.tasks.contains s) with
    | none =>
      cases htw : st.workstreams.find? (fun ws => ws.tasks.contains t) with
      | none =>
        simp only [hsw, htw]
        exact connectFinish_good (create_good hg "" "")
      | some tws =>
        simp only [hsw, htw]
        exact connectFinish_good hg
    | some sws =>
      cases htw : st.workstreams.find? (fun ws => ws.tasks.contains t) with
      | none =>
        simp only [hsw, htw]
        exact connectFinish_good hg
      | some tws =>
        simp only [hsw, htw]
        exact connectFinish_good hg

/-- every operation preserves the combined invariant. -/
theorem applyOp_good {st : Storage} (hg : GoodState st) (op : EngineOp) :
    GoodState (applyOp st op) := by
  cases op with
  | addTask u t =>
    show GoodState (match addTaskToWorkstream st u t with
      | .ok st' => st'
      | .error _ => st)
    cases h : addTaskToWorkstream st u t with
    | error e => exact hg
    | ok st1 => exact addTask_good hg h
  | connect s t ty => exact connectTasksRun_good hg

theorem applyOps_good {st : Storage} (hg : GoodState st) :
    ∀ ops : List EngineOp, GoodState (applyOps st ops) := by
  intro ops
  induction ops generalizing st with
  | nil => exact hg
  | cons op ops ih => exact ih (applyOp_good hg op)

instance (st : Storage) : Decidable (UuidsNodup st) := by
  unfold UuidsNodup; infer_instance

instance (st : Storage) : Decidable (MembershipUnique st) := by
  unfold MembershipUnique; infer_instance

/-- C4: starting from a collection with pairwise-distinct workstream uuids
in which no task id is shared by two workstream records, any sequence of
`addTaskToWorkstream`/`connectTasks` calls (each either completing or
throwing, a throw keeping the already persisted writes) leaves every task id
in the `tasks` of at most one workstream; moreover `addTaskToWorkstream`
fails with the typed `already belongs` error whenever the task is a member
of a workstream with a different uuid, and is a no-op (returning the
collection unchanged) when the task is already a member of the target
workstream. -/
theorem C4_single_membership_invariant (st : Storage)
    (hU : UuidsNodup st) (hM : MembershipUnique st) :
    (∀ ops : List EngineOp, AtMostOneWorkstream (applyOps st ops)) ∧
    (∀ wsUuid t w other,
      validateAll st.taskUuids st.workstreams = none →
      st.workstreams.find? (fun x => x.uuid == wsUuid) = some w →
      other ∈ st.workstreams → other.uuid ≠ wsUuid → t ∈ other.tasks →
      ∃ u, addTaskToWorkstream st wsUuid t =
        .error (.taskAlreadyInOtherWorkstream t u)) ∧
    (∀ wsUuid t w,
      validateAll st.taskUuids st.workstreams = none →
      st.workstreams.find? (fun x => x.uuid == wsUuid) = some w →
      t ∈ w.tasks →
      addTaskToWorkstream st wsUuid t = .ok st) := by
  have hg : GoodState st := ⟨hU, hM⟩
  refine ⟨?_, ?_, ?_⟩
  · intro ops
    exact atMostOne_of_goodState (applyOps_good hg ops)
  · intro wsUuid t w other hval hfind hmem hne hts
    have hp : (other.uuid != wsUuid && other.tasks.contains t) = true := by
      simp only [Bool.and_eq_true, bne_iff_ne, ne_eq]
      exact ⟨hne, List.elem_iff.mpr hts⟩
    rcases exists_find?_of_mem (p := fun x => x.uuid != wsUuid && x.tasks.contains t)
      hmem hp with ⟨o, ho, _⟩
    refine ⟨o.uuid, ?_⟩
    simp only [addTaskToWorkstream, loadAndValidateWorkstreams, hval, hfind, ho]
  · intro wsUuid t w hval hfind htw
    have hother : st.workstreams.find?
        (fun x => x.uuid != wsUuid && x.tasks.contains t) = none := by
      rw [List.find?_eq_none]
      intro x hx hpx
      simp only [Bool.and_eq_true, bne_iff_ne, ne_eq] at hpx
      have hwmem : w ∈ st.workstreams := List.mem_of_find?_eq_some hfind
      have hwuuid : w.uuid = wsUuid := by simpa using List.find?_some hfind
      have heq := hM w hwmem x hx t htw (List.elem_iff.mp hpx.2)
      exact hpx.1 (heq ▸ hwuuid)
    simp only [addTaskToWorkstream, loadAndValidateWorkstreams, hval, hfind, hother,
      htw, if_true]

/-- C4 witness: a concrete two-workstream collection, a sequence with a
failing `connectTasks` and a succeeding `addTaskToWorkstream`, a typed
`already belongs` failure, and a no-op re-add. -/
theorem C4_single_membership_invariant_witness :
    AtMostOneWorkstream (applyOps exStTwoWs
      [.connect "S" "T" .blocks, .addTask "w2" "X", .connect "S" "X" .blocks]) ∧
    (∃ u, addTaskToWorkstream exStTwoWs "w1" "T" =
      .error (.taskAlreadyInOtherWorkstream "T" u)) ∧
    addTaskToWorkstream exStTwoWs "w1" "S" = .ok exStTwoWs := by
  have h := C4_single_membership_invariant exStTwoWs (by decide) (by decide)
  exact ⟨h.1 _,
    h.2.1 "w1" "T" ⟨"w1", "", "", ["S"], []⟩ ⟨"w2", "", "", ["T"], []⟩
      (by decide) (by decide) (by decide) (by decide) (by decide),
    h.2.2 "w1" "S" ⟨"w1", "", "", ["S"], []⟩ (by decide) (by decide) (by decide)⟩

/-! ### Claim C2: wouldCreateCycle is a cycle decision procedure

The DFS of `wouldCreateCycle` is proved sound and complete with respect to
the mathematical cycle notion `GraphHasCycle` extended with the hypothetical
edge. -/

theorem mget_mset_self {α} (m : List (String × α)) (k : String) (v : α) :
    mget (mset m k v) k = some v := by
  induction m with
  | nil => simp [mset, mget, List.find?_cons]
  | cons p m ih =>
    unfold mset
    rcases hp : (p.1 == k) with hf | ht
    · simp only [Bool.false_eq_true, if_false]
      unfold mget
      rw [List.find?_cons, hp]
      exact ih
    · simp only [if_true]
      unfold mget
      rw [List.find?_cons]
      simp [hp]

theorem mget_mset_ne {α} (m : List (String × α)) (k k' : String) (v : α)
    (h : k' ≠ k) : mget (mset m k v) k' = mget m k' := by
  induction m with
  | nil =>
    unfold mset mget
    simp [List.find?_cons, beq_eq_false_iff_ne.mpr (Ne.symm h)]
  | cons p m ih =>
    unfold mset
    rcases hp : (p.1 == k) with hf | ht
    · simp only [Bool.false_eq_true, if_false]
      unfold mget
      rw [List.find?_cons, List.find?_cons]
      rcases hp' : (p.1 == k') with hf' | ht'
      · exact ih
      · rfl
    · simp only [if_true]
      have hpk : p.1 = k := by simpa using hp
      unfold mget
      rw [List.find?_cons, List.find?_cons]
      have : (p.1 == k') = false := beq_eq_false_iff_ne.mpr (hpk ▸ Ne.symm h)
      rw [this]

/-- `mset` on an existing key does not create keys; on a missing key it
appends exactly one. -/
theorem mget_mset_isSome {α} (m : List (String × α)) (k k' : String) (v : α) :
    (mget (mset m k v) k').isSome = ((mget m k').isSome || (k' == k)) := by
  by_cases h : k' = k
  · subst h
    rw [mget_mset_self]
    simp
  · rw [mget_mset_ne m k k' v h]
    simp [beq_eq_false_iff_ne.mpr h]

theorem mget_mpush_eq {m : List (String × List String)} {k : String} {l : List String}
    (hk : mget m k = some l) (v : String) :
    mpush m k v = mset m k (l ++ [v]) := by
  unfold mpush
  rw [hk]

theorem mget_mpush_none {m : List (String × List String)} {k : String}
    (hk : mget m k = none) (v : String) : mpush m k v = m := by
  unfold mpush
  rw [hk]

/-- characterisation of the adjacency map after pushing all dependency
edges: the successor list of `a` is its old list extended, in order, with
the targets of the dependencies whose source is `a` (pushed only when `a` is
a key). -/
theorem mget_depsAdj (deps : List WorkstreamDependency) :
    ∀ (m : List (String × List String)) (a : String),
      mget (depsAdj deps m) a = (mget m a).map
        (fun l => l ++ (deps.filter (fun d => d.fromTaskUuid == a)).map
          (fun d => d.toTaskUuid)) := by
  induction deps with
  | nil =>
    intro m a
    unfold depsAdj
    simp only [List.foldl_nil, List.filter_nil, List.map_nil, List.append_nil]
    cases mget m a <;> rfl
  | cons d ds ih =>
    intro m a
    have hstep : depsAdj (d :: ds) m = depsAdj ds (mpush m d.fromTaskUuid d.toTaskUuid) := by
      unfold depsAdj
      rw [List.foldl_cons]
    rw [hstep, ih]
    rcases hda : (d.fromTaskUuid == a) with hf | ht
    · have hne : d.fromTaskUuid ≠ a := beq_eq_false_iff_ne.mp hda
      have : mget (mpush m d.fromTaskUuid d.toTaskUuid) a = mget m a := by
        cases hk : mget m d.fromTaskUuid with
        | none => rw [mget_mpush_none hk]
        | some l => rw [mget_mpush_eq hk, mget_mset_ne _ _ _ _ (Ne.symm hne)]
      rw [this]
      rw [List.filter_cons]
      simp [hda]
    · have heq : d.fromTaskUuid = a := by simpa using hda
      subst heq
      rw [List.filter_cons]
      simp only [hda, if_pos rfl]
      cases hk : mget m d.fromTaskUuid with
      | none =>
        rw [mget_mpush_none hk, hk]
        simp
      | some l =>
        rw [mget_mpush_eq hk, mget_mset_self]
        simp

theorem mget_initAdj_aux (tasks : List String) :
    ∀ (m : List (String × List String)) (a : String),
      mget (tasks.foldl (fun acc t => mset acc t []) m) a =
        if a ∈ tasks then some [] else mget m a := by
  induction tasks with
  | nil => intro m a; simp
  | cons t ts ih =>
    intro m a
    rw [List.foldl_cons, ih]
    by_cases hts : a ∈ ts
    · simp [hts]
    · by_cases hat : a = t
      · subst hat
        simp [hts, mget_mset_self]
      · simp [hts, hat, mget_mset_ne m t a [] hat]

theorem mget_initAdj (tasks : List String) (a : String) :
    mget (initAdj tasks) a = if a ∈ tasks then some [] else none := by
  unfold initAdj
  rw [mget_initAdj_aux]
  rfl

/-- the full adjacency map built by `wouldCreateCycle`. -/
def builtAdj (w : Workstream) (fromTaskUuid toTaskUuid : String) :
    List (String × List String) :=
  mpush (depsAdj w.dependencies (initAdj w.tasks)) fromTaskUuid toTaskUuid

theorem mget_builtAdj (w : Workstream) (f t a : String) (hf : f ∈ w.tasks) :
    mget (builtAdj w f t) a =
      if a ∈ w.tasks then
        some ((w.dependencies.filter (fun d => d.fromTaskUuid == a)).map
            (fun d => d.toTaskUuid) ++ (if a = f then [t] else []))
      else none := by
  unfold builtAdj
  have hbase := mget_depsAdj w.dependencies (initAdj w.tasks) f
  rw [mget_initAdj, if_pos hf] at hbase
  simp only [Option.map_some'] at hbase
  rw [mget_mpush_eq hbase t]
  by_cases haf : a = f
  · subst haf
    rw [mget_mset_self, if_pos hf, if_pos rfl]
    simp
  · rw [mget_mset_ne _ _ _ _ haf, mget_depsAdj, mget_initAdj]
    by_cases hat : a ∈ w.tasks
    · simp [hat, haf]
    · simp [hat]

/-- the edge relation realised by an adjacency map. -/
def AdjEdge (adj : List (String × List String)) (a b : String) : Prop :=
  b ∈ succsOf adj a

/-- reachability in an adjacency map. -/
def AReach (adj : List (String × List String)) : String → String → Prop :=
  Relation.ReflTransGen (AdjEdge adj)

/-- some node of the adjacency map lies on a directed cycle. -/
def AdjHasCycle (adj : List (String × List String)) : Prop :=
  ∃ v w, AdjEdge adj v w ∧ AReach adj w v

/-- the claim's graph: the workstream's dependencies plus the hypothetical
edge `f → t`. -/
def DepEdgePlus (deps : List WorkstreamDependency) (f t a b : String) : Prop :=
  DepEdge deps a b ∨ (a = f ∧ b = t)

theorem adjEdge_iff (w : Workstream) (f t : String) (hf : f ∈ w.tasks)
    (hEnds : ∀ d ∈ w.dependencies, d.fromTaskUuid ∈ w.tasks) :
    ∀ a b, AdjEdge (builtAdj w f t) a b ↔ DepEdgePlus w.dependencies f t a b := by
  intro a b
  unfold AdjEdge succsOf
  rw [mget_builtAdj w f t a hf]
  by_cases hat : a ∈ w.tasks
  · rw [if_pos hat]
    simp only [Option.getD_some, List.mem_append, List.mem_map, List.mem_filter]
    constructor
    · rintro (⟨d, ⟨hd, hda⟩, rfl⟩ | hmem)
      · exact Or.inl ⟨d, hd, by simpa using hda, rfl⟩
      · by_cases haf : a = f
        · rw [if_pos haf] at hmem
          rcases List.mem_singleton.mp hmem with rfl
          exact Or.inr ⟨haf, rfl⟩
        · rw [if_neg haf] at hmem
          cases hmem
    · rintro (⟨d, hd, rfl, rfl⟩ | ⟨rfl, rfl⟩)
      · exact Or.inl ⟨d, ⟨hd, by simp⟩, rfl⟩
      · exact Or.inr (by simp)
  · rw [if_neg hat]
    simp only [Option.getD_none, List.not_mem_nil, false_iff]
    rintro (⟨d, hd, rfl, rfl⟩ | ⟨rfl, rfl⟩)
    · exact hat (hEnds d hd)
    · exact hat hf

theorem card_diff_mono {U : Finset String} {vis vis' : List String}
    (h : vis ⊆ vis') :
    (U \ vis'.toFinset).card ≤ (U \ vis.toFinset).card := by
  apply Finset.card_le_card
  apply Finset.sdiff_subset_sdiff (le_refl _)
  intro x hx
  rw [List.mem_toFinset] at hx ⊢
  exact h hx

theorem card_diff_lt {U : Finset String} {vis : List String} {node : String}
    (hn : node ∈ U) (hnv : node ∉ vis) :
    (U \ (vis ++ [node]).toFinset).card < (U \ vis.toFinset).card := by
  apply Finset.card_lt_card
  rw [Finset.ssubset_iff_of_subset]
  · exact ⟨node, Finset.mem_sdiff.mpr ⟨hn, by simpa using hnv⟩, by simp⟩
  · apply Finset.sdiff_subset_sdiff (le_refl _)
    intro x hx
    rw [List.mem_toFinset] at hx ⊢
    simp only [List.mem_append, List.mem_singleton]
    exact Or.inl hx

/-- the fully-explored (black) region of a dfs state: every successor of a
visited node off the recursion stack is itself visited and off the stack. -/
def BlackClosed (adj : List (String × List String)) (vis stk : List String) : Prop :=
  ∀ x ∈ vis, x ∉ stk → ∀ y, AdjEdge adj x y → y ∈ vis ∧ y ∉ stk

theorem blackClosed_reach {adj : List (String × List String)}
    {vis stk : List String} (hc : BlackClosed adj vis stk) {x y : String}
    (hx : x ∈ vis) (hxs : x ∉ stk) (hr : AReach adj x y) : y ∈ vis ∧ y ∉ stk := by
  induction hr with
  | refl => exact ⟨hx, hxs⟩
  | tail h1 h2 ih => exact hc _ ih.1 ih.2 _ h2

/-- behaviour of the neighbor loop, given the contract of the recursive dfs
call `f`: on `true` a cycle exists; on `false` the stack is restored, the
visited set only grows, black-closure is maintained, and every processed
neighbor ends up visited and off the stack. -/
theorem neighborsLoop_master (adj : List (String × List String))
    (U : List String) (B : Nat)
    (f : List String → List String → String → Bool × List String × List String)
    (Hf : ∀ vis stk n b v s, f vis stk n = (b, v, s) →
      n ∉ vis → (∀ x ∈ stk, x ∈ vis) → BlackClosed adj vis stk →
      n ∈ U → (∀ x ∈ stk, AReach adj x n) →
      (U.toFinset \ vis.toFinset).card < B →
      ((b = true → AdjHasCycle adj) ∧
       (b = false → s = stk ∧ vis ⊆ v ∧ n ∈ v ∧ BlackClosed adj v stk))) :
    ∀ (ns vis stk : List String) (parent : String) (b : Bool) (v s : List String),
      neighborsLoop f vis stk ns = (b, v, s) →
      (∀ x ∈ stk, x ∈ vis) → BlackClosed adj vis stk →
      parent ∈ stk → (∀ x ∈ stk, AReach adj x parent) →
      (∀ n ∈ ns, AdjEdge adj parent n) → (∀ n ∈ ns, n ∈ U) →
      (U.toFinset \ vis.toFinset).card < B →
      ((b = true → AdjHasCycle adj) ∧
       (b = false → s = stk ∧ vis ⊆ v ∧ BlackClosed adj v stk ∧
         ∀ n ∈ ns, n ∈ v ∧ n ∉ stk)) := by
  intro ns
  induction ns with
  | nil =>
    intro vis stk parent b v s hrun hsub hcl hp hpath hedges hnodes hB
    unfold neighborsLoop at hrun
    cases hrun
    constructor
    · intro h; cases h
    · intro _
      exact ⟨rfl, fun x hx => hx, hcl, by simp⟩
  | cons n ns ih =>
    intro vis stk parent b v s hrun hsub hcl hp hpath hedges hnodes hB
    unfold neighborsLoop at hrun
    by_cases hnv : n ∈ vis
    · rw [if_pos hnv] at hrun
      by_cases hns : n ∈ stk
      · rw [if_pos hns] at hrun
        cases hrun
        refine ⟨fun _ => ⟨parent, n, hedges n (by simp), hpath n hns⟩,
          fun h => by cases h⟩
      · rw [if_neg hns] at hrun
        have hrec := ih vis stk parent b v s hrun hsub hcl hp hpath
          (fun x hx => hedges x (by simp [hx]))
          (fun x hx => hnodes x (by simp [hx])) hB
        refine ⟨hrec.1, fun hb => ?_⟩
        rcases hrec.2 hb with ⟨hs, hv, hcl', hrest⟩
        refine ⟨hs, hv, hcl', ?_⟩
        intro x hx
        rcases List.mem_cons.mp hx with rfl | hx'
        · exact ⟨hv hnv, hns⟩
        · exact hrest x hx'
    · rw [if_neg hnv] at hrun
      rcases hf : f vis stk n with ⟨b1, v1, s1⟩
      rw [hf] at hrun
      have hpathn : ∀ x ∈ stk, AReach adj x n :=
        fun x hx => Relation.ReflTransGen.tail (hpath x hx) (hedges n (by simp))
      have HF := Hf vis stk n b1 v1 s1 hf hnv hsub hcl (hnodes n (by simp)) hpathn hB
      cases b1 with
      | true =>
        cases hrun
        exact ⟨fun _ => HF.1 rfl, fun h => by cases h⟩
      | false =>
        rcases HF.2 rfl with ⟨hs1, hv1, hnv1, hcl1⟩
        rw [hs1] at hrun
        dsimp only at hrun
        have hnstk : n ∉ stk := fun hx => hnv (hsub n hx)
        rw [if_neg hnstk] at hrun
        have hrec := ih v1 stk parent b v s hrun
          (fun x hx => hv1 (hsub x hx)) hcl1 hp hpath
          (fun x hx => hedges x (by simp [hx]))
          (fun x hx => hnodes x (by simp [hx]))
          (lt_of_le_of_lt (card_diff_mono hv1) hB)
        refine ⟨hrec.1, fun hb => ?_⟩
        rcases hrec.2 hb with ⟨hs, hv, hcl', hrest⟩
        refine ⟨hs, fun x hx => hv (hv1 hx), hcl', ?_⟩
        intro x hx
        rcases List.mem_cons.mp hx with rfl | hx'
        · exact ⟨hv hnv1, hnstk⟩
        · exact hrest x hx'

/-- full behaviour of the recursive dfs `hasCycle`: with sufficient fuel,
a `true` answer implies a cycle, and a `false` answer restores the stack,
extends the visited set with a fully explored black region, and certifies
that no cycle passes through the start node. -/
theorem hasCycleAux_master (adj : List (String × List String)) (U : List String)
    (hU : ∀ a l, mget adj a = some l → ∀ b ∈ l, b ∈ U) :
    ∀ (fuel : Nat) (vis stk : List String) (node : String) (b : Bool)
      (v s : List String),
      hasCycleAux adj fuel vis stk node = (b, v, s) →
      node ∉ vis → (∀ x ∈ stk, x ∈ vis) → BlackClosed adj vis stk →
      node ∈ U → (∀ x ∈ stk, AReach adj x node) →
      (U.toFinset \ vis.toFinset).card < fuel →
      ((b = true → AdjHasCycle adj) ∧
       (b = false → s = stk ∧ vis ⊆ v ∧ node ∈ v ∧ BlackClosed adj v stk ∧
         ¬ ∃ y, AdjEdge adj node y ∧ AReach adj y node)) := by
  intro fuel
  induction fuel with
  | zero =>
    intro vis stk node b v s hrun hnv hsub hcl hnode hpath hB
    exact absurd hB (Nat.not_lt_zero _)
  | succ fuel ih =>
    intro vis stk node b v s hrun hnv hsub hcl hnode hpath hB
    unfold hasCycleAux at hrun
    rw [if_neg hnv] at hrun
    rcases hloop : neighborsLoop (hasCycleAux adj fuel)
        (vis ++ [node]) (stk ++ [node]) (succsOf adj node) with ⟨b2, v2, s2⟩
    rw [hloop] at hrun
    have hsub1 : ∀ x ∈ stk ++ [node], x ∈ vis ++ [node] := by
      intro x hx
      rcases List.mem_append.mp hx with h | h
      · exact List.mem_append.mpr (Or.inl (hsub x h))
      · exact List.mem_append.mpr (Or.inr h)
    have hcl1 : BlackClosed adj (vis ++ [node]) (stk ++ [node]) := by
      intro x hxv hxs y hy
      have hxn : x ≠ node := by
        intro he
        exact hxs (he ▸ List.mem_append.mpr (Or.inr (by simp)))
      have hxv' : x ∈ vis := by
        rcases List.mem_append.mp hxv with h | h
        · exact h
        · exact absurd (List.mem_singleton.mp h) hxn
      have hxs' : x ∉ stk := fun h => hxs (List.mem_append.mpr (Or.inl h))
      have hblack := hcl x hxv' hxs' y hy
      refine ⟨List.mem_append.mpr (Or.inl hblack.1), ?_⟩
      intro hc'
      rcases List.mem_append.mp hc' with h | h
      · exact hblack.2 h
      · rcases List.mem_singleton.mp h with rfl
        exact hnv hblack.1
    have hedges1 : ∀ n ∈ succsOf adj node, AdjEdge adj node n := fun n hn => hn
    have hnodes1 : ∀ n ∈ succsOf adj node, n ∈ U := by
      intro n hn
      unfold succsOf at hn
      cases hm : mget adj node with
      | none => rw [hm] at hn; cases hn
      | some l =>
        rw [hm] at hn
        exact hU node l hm n hn
    have hpath1 : ∀ x ∈ stk ++ [node], AReach adj x node := by
      intro x hx
      rcases List.mem_append.mp hx with h | h
      · exact hpath x h
      · rcases List.mem_singleton.mp h with rfl
        exact Relation.ReflTransGen.refl
    have hp1 : node ∈ stk ++ [node] := List.mem_append.mpr (Or.inr (by simp))
    have hB1 : (U.toFinset \ (vis ++ [node]).toFinset).card < fuel := by
      have hlt := card_diff_lt (U := U.toFinset)
        (List.mem_toFinset.mpr hnode) hnv
      omega
    have Hf : ∀ vis' stk' n b' v' s',
        hasCycleAux adj fuel vis' stk' n = (b', v', s') →
        n ∉ vis' → (∀ x ∈ stk', x ∈ vis') → BlackClosed adj vis' stk' →
        n ∈ U → (∀ x ∈ stk', AReach adj x n) →
        (U.toFinset \ vis'.toFinset).card < fuel →
        ((b' = true → AdjHasCycle adj) ∧
         (b' = false → s' = stk' ∧ vis' ⊆ v' ∧ n ∈ v' ∧
           BlackClosed adj v' stk')) := by
      intro vis' stk' n b' v' s' hr hn hs hc hnd hpth hB'
      have hm := ih vis' stk' n b' v' s' hr hn hs hc hnd hpth hB'
      exact ⟨hm.1, fun hb =>
        ⟨(hm.2 hb).1, (hm.2 hb).2.1, (hm.2 hb).2.2.1, (hm.2 hb).2.2.2.1⟩⟩
    have HL := neighborsLoop_master adj U fuel (hasCycleAux adj fuel)
      (fun vis' stk' n b' v' s' hr hn hs hc hnd hpth hB' =>
        Hf vis' stk' n b' v' s' hr hn hs hc hnd hpth hB')
      (succsOf adj node) (vis ++ [node]) (stk ++ [node]) node b2 v2 s2
      hloop hsub1 hcl1 hp1 hpath1 hedges1 hnodes1 hB1
    cases b2 with
    | true =>
      cases hrun
      exact ⟨fun _ => HL.1 rfl, fun h => by cases h⟩
    | false =>
      rcases HL.2 rfl with ⟨hs2, hv2, hcl2, hneigh⟩
      rw [hs2] at hrun
      dsimp only at hrun
      have hnstk : node ∉ stk := fun h => hnv (hsub node h)
      have herase : (stk ++ [node]).erase node = stk := by
        rw [List.erase_append_right _ hnstk]
        simp
      rw [herase] at hrun
      cases hrun
      constructor
      · intro h; cases h
      · intro _
        refine ⟨rfl, fun x hx => hv2 (List.mem_append.mpr (Or.inl hx)),
          hv2 (List.mem_append.mpr (Or.inr (by simp))), ?_, ?_⟩
        · intro x hxv hxs y hy
          by_cases hxn : x = node
          · subst hxn
            have hb := hneigh y hy
            exact ⟨hb.1, fun hys => hb.2 (List.mem_append.mpr (Or.inl hys))⟩
          · have hxs1 : x ∉ stk ++ [node] := by
              intro hc'
              rcases List.mem_append.mp hc' with h | h
              · exact hxs h
              · exact hxn (List.mem_singleton.mp h)
            have hb := hcl2 x hxv hxs1 y hy
            exact ⟨hb.1, fun hys => hb.2 (List.mem_append.mpr (Or.inl hys))⟩
        · rintro ⟨y, hy, hreach⟩
          have hb := hneigh y hy
          have hbr := blackClosed_reach hcl2 hb.1 hb.2 hreach
          exact hbr.2 (List.mem_append.mpr (Or.inr (by simp)))

/-- C2: for a workstream whose dependency endpoints are members of its task
list and member tasks `fromT` and `toT`, `wouldCreateCycle` returns `true`
exactly when the dependency graph extended with the hypothetical edge
`fromT → toT` contains a cycle (a closed walk of length at least one). -/
theorem C2_wouldCreateCycle_iff
    (st : Storage) (wsUuid fromT toT : String) (w : Workstream)
    (hval : validateAll st.taskUuids st.workstreams = none)
    (hfind : st.workstreams.find? (fun x => x.uuid == wsUuid) = some w)
    (hEnds : ∀ d ∈ w.dependencies,
      d.fromTaskUuid ∈ w.tasks ∧ d.toTaskUuid ∈ w.tasks)
    (hf : fromT ∈ w.tasks) (ht : toT ∈ w.tasks) :
    wouldCreateCycle st wsUuid fromT toT = .ok true ↔
      ∃ v x, DepEdgePlus w.dependencies fromT toT v x ∧
        Relation.ReflTransGen (DepEdgePlus w.dependencies fromT toT) x v := by
  have hadj : builtAdj w fromT toT =
      mpush (depsAdj w.dependencies (initAdj w.tasks)) fromT toT := rfl
  set adj := builtAdj w fromT toT with hadjdef
  set F := w.tasks.length + w.dependencies.length + 2 with hFdef
  set U := w.tasks ++ w.dependencies.map (fun d => d.toTaskUuid) ++ [toT] with hUdef
  have hU : ∀ a l, mget adj a = some l → ∀ b ∈ l, b ∈ U := by
    intro a l hm b hb
    rw [hadjdef, mget_builtAdj w fromT toT a hf] at hm
    by_cases hat : a ∈ w.tasks
    · rw [if_pos hat] at hm
      cases hm
      rcases List.mem_append.mp hb with h1 | h2
      · rcases List.mem_map.mp h1 with ⟨d, hd, rfl⟩
        have hdm := (List.mem_filter.mp hd).1
        rw [hUdef]
        refine List.mem_append.mpr (Or.inl (List.mem_append.mpr (Or.inr ?_)))
        exact List.mem_map_of_mem _ hdm
      · by_cases haf : a = fromT
        · rw [if_pos haf] at h2
          rcases List.mem_singleton.mp h2 with rfl
          rw [hUdef]
          exact List.mem_append.mpr (Or.inr (by simp))
        · rw [if_neg haf] at h2
          cases h2
    · rw [if_neg hat] at hm
      cases hm
  have hseed : ∀ v ∈ w.tasks, v ∈ U := by
    intro v hv
    rw [hUdef]
    exact List.mem_append.mpr (Or.inl (List.mem_append.mpr (Or.inl hv)))
  have hF : U.toFinset.card < F := by
    have h1 : U.toFinset.card ≤ U.length := U.toFinset_card_le
    have h2 : U.length = w.tasks.length + w.dependencies.length + 1 := by
      rw [hUdef]
      simp only [List.length_append, List.length_map, List.length_singleton]
    omega
  have hrun : wouldCreateCycle st wsUuid fromT toT =
      .ok (w.tasks.any (fun v => (hasCycleAux adj F [] [] v).1)) := by
    simp only [wouldCreateCycle, loadAndValidateWorkstreams, hval, hfind]
    rfl
  rw [hrun]
  have hiff := adjEdge_iff w fromT toT hf (fun d hd => (hEnds d hd).1)
  have hiffR : ∀ a c, AReach adj c a ↔
      Relation.ReflTransGen (DepEdgePlus w.dependencies fromT toT) c a := by
    intro a c
    constructor
    · exact Relation.ReflTransGen.mono (fun x y h => (hiff x y).mp h)
    · exact Relation.ReflTransGen.mono (fun x y h => (hiff x y).mpr h)
  constructor
  · intro hok
    have hany : (w.tasks.any fun v => (hasCycleAux adj F [] [] v).1) = true := by
      have := hok
      simp only [Except.ok.injEq] at this
      exact this
    rcases List.any_eq_true.mp hany with ⟨v, hv, hone⟩
    rcases hres : hasCycleAux adj F [] [] v with ⟨b, vv, ss⟩
    rw [hres] at hone
    have HM := hasCycleAux_master adj U hU F [] [] v b vv ss hres
      (by simp) (by intro x hx; cases hx) (by intro x hx; cases hx)
      (hseed v hv) (by intro x hx; cases hx) (by simpa using hF)
    rcases HM.1 hone with ⟨a, c, hac, hreach⟩
    exact ⟨a, c, (hiff a c).mp hac, (hiffR a c).mp hreach⟩
  · rintro ⟨a, c, hac, hreach⟩
    have hacA : AdjEdge adj a c := (hiff a c).mpr hac
    have hreachA : AReach adj c a := (hiffR a c).mpr hreach
    have hamem : a ∈ w.tasks := by
      rcases hac with ⟨d, hd, he, _⟩ | ⟨he, _⟩
      · exact he ▸ (hEnds d hd).1
      · exact he ▸ hf
    have hany : (w.tasks.any fun v => (hasCycleAux adj F [] [] v).1) = true := by
      apply List.any_eq_true.mpr
      refine ⟨a, hamem, ?_⟩
      rcases hres : hasCycleAux adj F [] [] a with ⟨b, vv, ss⟩
      cases b with
      | true => rfl
      | false =>
        have HM := hasCycleAux_master adj U hU F [] [] a false vv ss hres
          (by simp) (by intro x hx; cases hx) (by intro x hx; cases hx)
          (hseed a hamem) (by intro x hx; cases hx) (by simpa using hF)
        rcases HM.2 rfl with ⟨_, _, _, _, hnc⟩
        exact absurd ⟨c, hacA, hreachA⟩ hnc
    rw [hany]

/-- C2 witness: with existing edges `A→B` and `B→C`, the call
`wouldCreateCycle(W, C, A)` returns `true`. -/
theorem C2_wouldCreateCycle_iff_witness :
    wouldCreateCycle exStABC "W" "C" "A" = .ok true :=
  (C2_wouldCreateCycle_iff exStABC "W" "C" "A" exWsABC
    (by decide) (by decide) (by decide) (by decide) (by decide)).mpr
    ⟨"C", "A", Or.inr ⟨rfl, rfl⟩,
      Relation.ReflTransGen.tail
        (Relation.ReflTransGen.single (Or.inl ⟨mkDep "A" "B", by simp [exWsABC], rfl, rfl⟩))
        (Or.inl ⟨mkDep "B" "C", by simp [exWsABC], rfl, rfl⟩)⟩

/-! ### Claim C3: correctness of `getTopologicalSort` (Kahn's algorithm)

The in-degree map built by `getTopologicalSort` and then mutated by the
Kahn loop always has the shape `tasks.map (fun k => (k, f k))` for a value
function `f` (the task list is duplicate-free).  The lemmas below
characterise `mget`, `mset` and the two map-building folds on maps of this
shape, and set up the quantitative in-degree accounting. -/

theorem mget_cons {α} (p : String × α) (m : List (String × α)) (k : String) :
    mget (p :: m) k = if p.1 == k then some p.2 else mget m k := by
  rcases hp : (p.1 == k) with hf | ht <;> simp [mget, List.find?_cons, hp]

theorem mget_map_form {α} (tasks : List String) (f : String → α) (a : String) :
    mget (tasks.map (fun k => (k, f k))) a = if a ∈ tasks then some (f a) else none := by
  induction tasks with
  | nil => rfl
  | cons t ts ih =>
    rw [List.map_cons, mget_cons]
    by_cases hta : t = a
    · subst hta
      simp
    · have hbeq : ((t, f t).1 == a) = false := beq_eq_false_iff_ne.mpr hta
      rw [hbeq]
      simp only [Bool.false_eq_true, if_false, ih]
      simp [List.mem_cons, Ne.symm hta]

theorem mset_map_form {α} (tasks : List String) (hnd : tasks.Nodup)
    (f : String → α) (key : String) (v : α) (hk : key ∈ tasks) :
    mset (tasks.map (fun k => (k, f k))) key v =
      tasks.map (fun k => (k, if k = key then v else f k)) := by
  induction tasks with
  | nil => cases hk
  | cons t ts ih =>
    rw [List.map_cons, List.map_cons]
    unfold mset
    by_cases hta : t = key
    · subst hta
      have hbeq : ((t, f t).1 == t) = true := by simp
      rw [hbeq]
      simp only [if_true, if_pos rfl]
      have htts : t ∉ ts := (List.nodup_cons.mp hnd).1
      have : ts.map (fun k => (k, if k = t then v else f k)) =
          ts.map (fun k => (k, f k)) := by
        apply List.map_congr_left
        intro k hk2
        have hne : k ≠ t := fun h => htts (h ▸ hk2)
        simp [hne]
      rw [this]
    · have hbeq : ((t, f t).1 == key) = false := beq_eq_false_iff_ne.mpr hta
      rw [hbeq]
      simp only [Bool.false_eq_true, if_false]
      have hkts : key ∈ ts := by
        rcases List.mem_cons.mp hk with h | h
        · exact absurd h.symm hta
        · exact h
      rw [ih (List.nodup_cons.mp hnd).2 hkts]
      simp [hta]

theorem mget_append_none {α} {l1 : List (String × α)} {k : String}
    (h : mget l1 k = none) (l2 : List (String × α)) :
    mget (l1 ++ l2) k = mget l2 k := by
  induction l1 with
  | nil => rfl
  | cons p l ih =>
    rw [mget_cons] at h
    rw [List.cons_append, mget_cons]
    rcases hp : (p.1 == k) with hf | ht
    · rw [hp] at h
      simp only [Bool.false_eq_true, if_false] at h ⊢
      exact ih h
    · rw [hp] at h
      simp at h

theorem mset_append_of_none {α} {m : List (String × α)} {k : String}
    (h : mget m k = none) (v : α) : mset m k v = m ++ [(k, v)] := by
  induction m with
  | nil => rfl
  | cons p m ih =>
    rw [mget_cons] at h
    unfold mset
    rcases hp : (p.1 == k) with hf | ht
    · rw [hp] at h
      simp only [Bool.false_eq_true, if_false] at h ⊢
      rw [ih h]
      rfl
    · rw [hp] at h
      simp at h

theorem init_mset_map_form {α} (z : α) :
    ∀ (tasks : List String), tasks.Nodup →
    ∀ (acc : List (String × α)), (∀ t ∈ tasks, mget acc t = none) →
      tasks.foldl (fun m t => mset m t z) acc = acc ++ tasks.map (fun k => (k, z)) := by
  intro tasks
  induction tasks with
  | nil =>
    intro _ acc _
    simp
  | cons t ts ih =>
    intro hnd acc hacc
    rw [List.foldl_cons, mset_append_of_none (hacc t (by simp)) z]
    rw [ih (List.nodup_cons.mp hnd).2 (acc ++ [(t, z)]) ?_]
    · simp
    · intro t' ht'
      have h1 : mget acc t' = none := hacc t' (by simp [ht'])
      have hne : t' ≠ t := fun h => (List.nodup_cons.mp hnd).1 (h ▸ ht')
      rw [mget_append_none h1, mget_cons]
      have : ((t, z).1 == t') = false := beq_eq_false_iff_ne.mpr (Ne.symm hne)
      rw [this]
      rfl

theorem initIndeg_map_form (tasks : List String) (hnd : tasks.Nodup) :
    initIndeg tasks = tasks.map (fun k => (k, (0 : Int))) := by
  have := init_mset_map_form (0 : Int) tasks hnd [] (fun t _ => rfl)
  simpa [initIndeg] using this

/-- number of dependencies targeting `k`: the in-degree first computed by
`getTopologicalSort`. -/
def numTo (deps : List WorkstreamDependency) (k : String) : Nat :=
  (deps.filter (fun d => d.toTaskUuid == k)).length

/-- number of dependencies targeting `k` whose source has been emitted. -/
def numDone (deps : List WorkstreamDependency) (res : List String) (k : String) : Nat :=
  (deps.filter (fun d => d.toTaskUuid == k && decide (d.fromTaskUuid ∈ res))).length

/-- every dependency into `x` comes from an already-emitted task. -/
def Ready (deps : List WorkstreamDependency) (res : List String) (x : String) : Prop :=
  ∀ d ∈ deps, d.toTaskUuid = x → d.fromTaskUuid ∈ res

/-- every dependency whose target occurs in the list has its source occur
strictly earlier. -/
def Ord (deps : List WorkstreamDependency) (res : List String) : Prop :=
  ∀ d ∈ deps, d.toTaskUuid ∈ res →
    ∃ r1 r2, res = r1 ++ d.toTaskUuid :: r2 ∧ d.fromTaskUuid ∈ r1

/-- `x` lies on a directed dependency cycle. -/
def OnCyc (deps : List WorkstreamDependency) (x : String) : Prop :=
  ∃ y, DepEdge deps x y ∧ GraphReach deps y x

theorem bumpIndeg_map_form (deps : List WorkstreamDependency) (tasks : List String)
    (hnd : tasks.Nodup) (hto : ∀ d ∈ deps, d.toTaskUuid ∈ tasks) :
    ∀ f : String → Int,
      bumpIndeg deps (tasks.map (fun k => (k, f k))) =
        tasks.map (fun k => (k, f k + (numTo deps k : Int))) := by
  induction deps with
  | nil =>
    intro f
    unfold bumpIndeg
    simp only [List.foldl_nil]
    apply List.map_congr_left
    intro k _
    simp [numTo]
  | cons d ds ih =>
    intro f
    have hstep : bumpIndeg (d :: ds) (tasks.map (fun k => (k, f k))) =
        bumpIndeg ds (mset (tasks.map (fun k => (k, f k))) d.toTaskUuid
          ((mget (tasks.map (fun k => (k, f k))) d.toTaskUuid).getD 0 + 1)) := by
      unfold bumpIndeg
      rw [List.foldl_cons]
    have hdt : d.toTaskUuid ∈ tasks := hto d (by simp)
    rw [hstep, mget_map_form, if_pos hdt]
    simp only [Option.getD_some]
    rw [mset_map_form tasks hnd f d.toTaskUuid (f d.toTaskUuid + 1) hdt]
    rw [ih (fun d' hd' => hto d' (by simp [hd']))
      (fun k => if k = d.toTaskUuid then f d.toTaskUuid + 1 else f k)]
    apply List.map_congr_left
    intro k _
    have hcount : numTo (d :: ds) k = numTo ds k + (if d.toTaskUuid = k then 1 else 0) := by
      unfold numTo
      rw [List.filter_cons]
      by_cases h : d.toTaskUuid = k
      · simp [h]
      · simp [beq_eq_false_iff_ne.mpr h, h]
    by_cases h : k = d.toTaskUuid
    · rw [if_pos h, hcount, if_pos h.symm, h]
      congr 1
      push_cast
      ring
    · rw [if_neg h, hcount, if_neg (fun e => h e.symm)]
      simp

theorem filter_map_form (tasks : List String) (f : String → Int) :
    (((tasks.map (fun k => (k, f k))).filter (fun p => p.2 == 0)).map Prod.fst) =
      tasks.filter (fun k => f k == 0) := by
  induction tasks with
  | nil => rfl
  | cons t ts ih =>
    simp only [List.map_cons, List.filter_cons]
    by_cases h : f t = 0
    · simp [h, ih]
    · have hb : ((f t : Int) == 0) = false := beq_eq_false_iff_ne.mpr h
      simp only [hb]
      simp [ih]

theorem numDone_nil (deps : List WorkstreamDependency) (k : String) :
    numDone deps [] k = 0 := by
  unfold numDone
  induction deps with
  | nil => rfl
  | cons d ds ih =>
    rw [List.filter_cons]
    simp [ih]

theorem numDone_le_numTo (deps : List WorkstreamDependency) (res : List String)
    (k : String) : numDone deps res k ≤ numTo deps k := by
  unfold numDone numTo
  rw [← List.countP_eq_length_filter, ← List.countP_eq_length_filter]
  exact List.countP_mono_left (fun d _ h => by
    simp only [Bool.and_eq_true] at h
    exact h.1)

theorem counts_of_ready {deps : List WorkstreamDependency} {res : List String}
    {x : String} (h : Ready deps res x) : numDone deps res x = numTo deps x := by
  unfold numDone numTo
  induction deps with
  | nil => rfl
  | cons d ds ih =>
    rw [List.filter_cons, List.filter_cons]
    have ih' := ih (fun d' hd' => h d' (by simp [hd']))
    by_cases h1 : d.toTaskUuid = x
    · have hf : d.fromTaskUuid ∈ res := h d (by simp) h1
      simp only [h1, beq_self_eq_true, hf, decide_eq_true_eq, Bool.and_self,
        decide_eq_true hf, Bool.and_true, if_true]
      simp [ih']
    · have hb : (d.toTaskUuid == x) = false := beq_eq_false_iff_ne.mpr h1
      simp only [hb, Bool.false_and, Bool.false_eq_true, if_false]
      exact ih'

theorem all_of_countP_le {α} {p q : α → Bool} :
    ∀ {l : List α}, l.countP q ≤ l.countP (fun a => q a && p a) →
    ∀ a ∈ l, q a = true → p a = true := by
  intro l
  induction l with
  | nil =>
    intro _ a ha
    cases ha
  | cons b l ih =>
    intro h a ha hqa
    have hm : l.countP (fun x => q x && p x) ≤ l.countP q :=
      List.countP_mono_left (fun x _ hh => by
        simp only [Bool.and_eq_true] at hh
        exact hh.1)
    rw [List.countP_cons, List.countP_cons] at h
    rcases List.mem_cons.mp ha with rfl | ha'
    · cases hpa : p a
      · exfalso
        rw [hqa, hpa] at h
        simp at h
        omega
      · rfl
    · apply ih ?_ a ha' hqa
      cases hqb : q b
      · rw [hqb] at h
        simp at h
        omega
      · cases hpb : p b <;> rw [hqb, hpb] at h <;> simp at h <;> omega

theorem ready_of_counts {deps : List WorkstreamDependency} {res : List String}
    {x : String} (h : numTo deps x ≤ numDone deps res x) : Ready deps res x := by
  intro d hd hdx
  have hcount : deps.countP (fun d => d.toTaskUuid == x) ≤
      deps.countP (fun d => (d.toTaskUuid == x) && decide (d.fromTaskUuid ∈ res)) := by
    rw [List.countP_eq_length_filter, List.countP_eq_length_filter]
    exact h
  have := all_of_countP_le (p := fun d => decide (d.fromTaskUuid ∈ res))
    (q := fun d => d.toTaskUuid == x) hcount d hd (beq_iff_eq.mpr hdx)
  simpa using this

theorem numDone_append (deps : List WorkstreamDependency) (res : List String)
    (t : String) (ht : t ∉ res) (k : String) :
    numDone deps (res ++ [t]) k = numDone deps res k +
      (deps.filter (fun d => d.fromTaskUuid == t && d.toTaskUuid == k)).length := by
  unfold numDone
  induction deps with
  | nil => rfl
  | cons d ds ih =>
    rw [List.filter_cons, List.filter_cons, List.filter_cons]
    by_cases h1 : d.toTaskUuid = k
    · by_cases h2 : d.fromTaskUuid = t
      · have e1 : (d.toTaskUuid == k && decide (d.fromTaskUuid ∈ res ++ [t])) = true := by
          simp [h1, h2]
        have e2 : (d.toTaskUuid == k && decide (d.fromTaskUuid ∈ res)) = false := by
          simp [h1, h2, ht]
        have e3 : (d.fromTaskUuid == t && d.toTaskUuid == k) = true := by
          simp [h1, h2]
        rw [e1, e2, e3]
        simp only [if_true, Bool.false_eq_true, if_false, List.length_cons]
        omega
      · by_cases h3 : d.fromTaskUuid ∈ res
        · have e1 : (d.toTaskUuid == k && decide (d.fromTaskUuid ∈ res ++ [t])) = true := by
            simp [h1, h3]
          have e2 : (d.toTaskUuid == k && decide (d.fromTaskUuid ∈ res)) = true := by
            simp [h1, h3]
          have e3 : (d.fromTaskUuid == t && d.toTaskUuid == k) = false := by
            simp [h2]
          rw [e1, e2, e3]
          simp only [if_true, Bool.false_eq_true, if_false, List.length_cons]
          omega
        · have e1 : (d.toTaskUuid == k && decide (d.fromTaskUuid ∈ res ++ [t])) = false := by
            simp [h2, h3]
          have e2 : (d.toTaskUuid == k && decide (d.fromTaskUuid ∈ res)) = false := by
            simp [h3]
          have e3 : (d.fromTaskUuid == t && d.toTaskUuid == k) = false := by
            simp [h2]
          rw [e1, e2, e3]
          simpa using ih
    · have hb : (d.toTaskUuid == k) = false := beq_eq_false_iff_ne.mpr h1
      have e3 : (d.fromTaskUuid == t && d.toTaskUuid == k) = false := by
        simp [hb]
      rw [e3]
      simp only [hb, Bool.false_and, Bool.false_eq_true, if_false]
      exact ih

theorem count_succs (deps : List WorkstreamDependency) (t k : String) :
    (((deps.filter (fun d => d.fromTaskUuid == t)).map (fun d => d.toTaskUuid)).count k)
      = (deps.filter (fun d => d.fromTaskUuid == t && d.toTaskUuid == k)).length := by
  induction deps with
  | nil => rfl
  | cons d ds ih =>
    rw [List.filter_cons, List.filter_cons]
    by_cases h1 : d.fromTaskUuid = t
    · have e1 : (d.fromTaskUuid == t) = true := beq_iff_eq.mpr h1
      by_cases h2 : d.toTaskUuid = k
      · have e3 : (d.fromTaskUuid == t && d.toTaskUuid == k) = true := by simp [h1, h2]
        rw [e3, e1]
        simp only [if_true, List.map_cons, List.length_cons]
        rw [List.count_cons]
        simp [h2, ih]
      · have e3 : (d.fromTaskUuid == t && d.toTaskUuid == k) = false := by simp [h2]
        rw [e3, e1]
        simp only [if_true, Bool.false_eq_true, if_false, List.map_cons]
        rw [List.count_cons]
        have hkd : ¬(k = d.toTaskUuid) := fun e => h2 e.symm
        simp [hkd, ih, h2]
    · have e1 : (d.fromTaskUuid == t) = false := beq_eq_false_iff_ne.mpr h1
      have e3 : (d.fromTaskUuid == t && d.toTaskUuid == k) = false := by simp [e1]
      rw [e3, e1]
      simpa using ih

theorem processNeighbors_cons (indeg : List (String × Int)) (queue : List String)
    (nb : String) (nbs : List String) :
    processNeighbors indeg queue (nb :: nbs) =
      processNeighbors (mset indeg nb ((mget indeg nb).getD 0 - 1))
        (if ((mget indeg nb).getD 0 - 1) == 0 then queue ++ [nb] else queue) nbs := rfl

/-- effect of the inner neighbor loop on an in-degree map over the task
list: every neighbor's value drops by its multiplicity in the neighbor
list, and the enqueued nodes are exactly the neighbors whose value reaches
zero by a unit decrement (these were strictly positive before and are
non-positive after). -/
theorem processNeighbors_master (tasks : List String) (hnd : tasks.Nodup) :
    ∀ (ns : List String) (f : String → Int) (queue : List String),
      (∀ n ∈ ns, n ∈ tasks) →
      ∃ pushed,
        processNeighbors (tasks.map (fun k => (k, f k))) queue ns =
          (tasks.map (fun k => (k, f k - (ns.count k : Int))), queue ++ pushed) ∧
        (∀ x ∈ pushed, x ∈ ns) ∧
        (∀ x ∈ pushed, 0 < f x) ∧
        (∀ x ∈ pushed, f x - (ns.count x : Int) ≤ 0) ∧
        (∀ x, x ∈ ns → 0 < f x → f x - (ns.count x : Int) ≤ 0 → x ∈ pushed) ∧
        pushed.Nodup := by
  intro ns
  induction ns with
  | nil =>
    intro f queue _
    refine ⟨[], ?_, by simp, by simp, by simp, by simp, List.nodup_nil⟩
    simp only [processNeighbors, List.append_nil]
    have : tasks.map (fun k => (k, f k - (List.count k [] : Int))) =
        tasks.map (fun k => (k, f k)) := by
      apply List.map_congr_left
      intro k _
      simp
    rw [this]
  | cons nb nbs ih =>
    intro f queue hns
    have hnb : nb ∈ tasks := hns nb (by simp)
    have hget : mget (tasks.map (fun k => (k, f k))) nb = some (f nb) := by
      rw [mget_map_form, if_pos hnb]
    have hcnt : ∀ x, ((nb :: nbs).count x : Int) =
        (nbs.count x : Int) + (if x = nb then 1 else 0) := by
      intro x
      rw [List.count_cons]
      by_cases h : x = nb
      · simp [h]
      · simp [h, Ne.symm h]
    rw [processNeighbors_cons, hget]
    simp only [Option.getD_some]
    rw [mset_map_form tasks hnd f nb (f nb - 1) hnb]
    by_cases hzero : f nb - 1 = 0
    · have hbeq : ((f nb - 1) == (0 : Int)) = true := beq_iff_eq.mpr hzero
      rw [if_pos hbeq]
      obtain ⟨pushed', heq, hp1, hp3, hp2, hp4, hpnd⟩ :=
        ih (fun k => if k = nb then f nb - 1 else f k) (queue ++ [nb])
          (fun n hn => hns n (by simp [hn]))
      have hp3' : ∀ x ∈ pushed', 0 < (if x = nb then f nb - 1 else f x) := hp3
      have hp2' : ∀ x ∈ pushed',
          (if x = nb then f nb - 1 else f x) - (nbs.count x : Int) ≤ 0 := hp2
      have hp4' : ∀ x, x ∈ nbs → 0 < (if x = nb then f nb - 1 else f x) →
          (if x = nb then f nb - 1 else f x) - (nbs.count x : Int) ≤ 0 →
          x ∈ pushed' := hp4
      have hnbp : nb ∉ pushed' := by
        intro hmem
        have h3 := hp3' nb hmem
        rw [if_pos rfl] at h3
        omega
      refine ⟨nb :: pushed', ?_, ?_, ?_, ?_, ?_, List.nodup_cons.mpr ⟨hnbp, hpnd⟩⟩
      · rw [heq]
        have hmaps : tasks.map (fun k =>
            (k, (if k = nb then f nb - 1 else f k) - (nbs.count k : Int))) =
            tasks.map (fun k => (k, f k - ((nb :: nbs).count k : Int))) := by
          apply List.map_congr_left
          intro k _
          have hv : (if k = nb then f nb - 1 else f k) - (nbs.count k : Int) =
              f k - ((nb :: nbs).count k : Int) := by
            rw [hcnt k]
            by_cases h : k = nb
            · rw [if_pos h, if_pos h, h]
              omega
            · rw [if_neg h, if_neg h]
              omega
          rw [hv]
        rw [hmaps]
        simp
      · intro x hx
        rcases List.mem_cons.mp hx with hxe | hx'
        · rw [hxe]
          exact List.mem_cons_self nb nbs
        · exact List.mem_cons_of_mem nb (hp1 x hx')
      · intro x hx
        rcases List.mem_cons.mp hx with hxe | hx'
        · rw [hxe]
          omega
        · have h3 := hp3' x hx'
          have hxnb : x ≠ nb := by
            intro e
            rw [if_pos e] at h3
            omega
          rwa [if_neg hxnb] at h3
      · intro x hx
        rw [hcnt x]
        rcases List.mem_cons.mp hx with hxe | hx'
        · rw [if_pos hxe, hxe]
          omega
        · have h3 := hp3' x hx'
          have hxnb : x ≠ nb := by
            intro e
            rw [if_pos e] at h3
            omega
          have h2 := hp2' x hx'
          rw [if_neg hxnb] at h2
          rw [if_neg hxnb]
          omega
      · intro x hx hpos hfin
        by_cases hxnb : x = nb
        · rw [hxnb]
          exact List.mem_cons_self nb pushed'
        · apply List.mem_cons_of_mem
          rcases List.mem_cons.mp hx with hxe | hx'
          · exact absurd hxe hxnb
          · apply hp4' x hx'
            · rwa [if_neg hxnb]
            · rw [if_neg hxnb]
              rw [hcnt x, if_neg hxnb] at hfin
              omega
    · have hbeq : ((f nb - 1) == (0 : Int)) = false := beq_eq_false_iff_ne.mpr hzero
      have hprop : ¬(((f nb - 1) == (0 : Int)) = true) := by
        rw [hbeq]
        simp
      rw [if_neg hprop]
      obtain ⟨pushed', heq, hp1, hp3, hp2, hp4, hpnd⟩ :=
        ih (fun k => if k = nb then f nb - 1 else f k) queue
          (fun n hn => hns n (by simp [hn]))
      have hp3' : ∀ x ∈ pushed', 0 < (if x = nb then f nb - 1 else f x) := hp3
      have hp2' : ∀ x ∈ pushed',
          (if x = nb then f nb - 1 else f x) - (nbs.count x : Int) ≤ 0 := hp2
      have hp4' : ∀ x, x ∈ nbs → 0 < (if x = nb then f nb - 1 else f x) →
          (if x = nb then f nb - 1 else f x) - (nbs.count x : Int) ≤ 0 →
          x ∈ pushed' := hp4
      refine ⟨pushed', ?_, ?_, ?_, ?_, ?_, hpnd⟩
      · rw [heq]
        have hmaps : tasks.map (fun k =>
            (k, (if k = nb then f nb - 1 else f k) - (nbs.count k : Int))) =
            tasks.map (fun k => (k, f k - ((nb :: nbs).count k : Int))) := by
          apply List.map_congr_left
          intro k _
          have hv : (if k = nb then f nb - 1 else f k) - (nbs.count k : Int) =
              f k - ((nb :: nbs).count k : Int) := by
            rw [hcnt k]
            by_cases h : k = nb
            · rw [if_pos h, if_pos h, h]
              omega
            · rw [if_neg h, if_neg h]
              omega
          rw [hv]
        rw [hmaps]
      · exact fun x hx => List.mem_cons_of_mem nb (hp1 x hx)
      · intro x hx
        have h3 := hp3' x hx
        by_cases hxnb : x = nb
        · rw [if_pos hxnb] at h3
          rw [hxnb]
          omega
        · rwa [if_neg hxnb] at h3
      · intro x hx
        have h2 := hp2' x hx
        rw [hcnt x]
        by_cases hxnb : x = nb
        · rw [if_pos hxnb] at h2
          rw [if_pos hxnb]
          rw [hxnb] at h2 ⊢
          omega
        · rw [if_neg hxnb] at h2
          rw [if_neg hxnb]
          omega
      · intro x hx hpos hfin
        rw [hcnt x] at hfin
        by_cases hxnb : x = nb
        · rw [if_pos hxnb] at hfin
          have hxnbs : x ∈ nbs := by
            by_contra hno
            have hc0 : nbs.count x = 0 := List.count_eq_zero.mpr hno
            rw [hc0] at hfin
            rw [hxnb] at hfin hpos
            simp only [Nat.cast_zero] at hfin
            omega
          apply hp4' x hxnbs
          · rw [if_pos hxnb]
            rw [hxnb] at hpos
            omega
          · rw [if_pos hxnb, hxnb]
            rw [hxnb] at hfin
            omega
        · rcases List.mem_cons.mp hx with hxe | hx'
          · exact absurd hxe hxnb
          · apply hp4' x hx'
            · rwa [if_neg hxnb]
            · rw [if_neg hxnb]
              rw [if_neg hxnb] at hfin
              omega

theorem ready_mono {deps : List WorkstreamDependency} {res res' : List String}
    (hsub : ∀ x ∈ res, x ∈ res') {x : String} (h : Ready deps res x) :
    Ready deps res' x :=
  fun d hd hdx => hsub _ (h d hd hdx)

/-- pigeonhole: a nonempty set of nodes each of which has a predecessor in
the set contains a directed cycle (walk backwards for more steps than there
are nodes and a node repeats). -/
theorem stuck_cycle (deps : List WorkstreamDependency) (S : List String)
    (hne : S ≠ []) (hstep : ∀ v ∈ S, ∃ u, u ∈ S ∧ DepEdge deps u v) :
    GraphHasCycle deps := by
  classical
  have hch : ∀ v : String, ∃ u, (v ∈ S → u ∈ S ∧ DepEdge deps u v) := by
    intro v
    by_cases hv : v ∈ S
    · obtain ⟨u, hu⟩ := hstep v hv
      exact ⟨u, fun _ => hu⟩
    · exact ⟨v, fun h => absurd h hv⟩
  choose F hF using hch
  obtain ⟨v0, hv0⟩ : ∃ v, v ∈ S := by
    cases S with
    | nil => exact absurd rfl hne
    | cons a l => exact ⟨a, by simp⟩
  have hgS : ∀ n : Nat, F^[n] v0 ∈ S := by
    intro n
    induction n with
    | zero => exact hv0
    | succ n ihn =>
      rw [Function.iterate_succ_apply']
      exact (hF (F^[n] v0) ihn).1
  have hgE : ∀ n : Nat, DepEdge deps (F^[n+1] v0) (F^[n] v0) := by
    intro n
    rw [Function.iterate_succ_apply']
    exact (hF (F^[n] v0) (hgS n)).2
  have hgR : ∀ i j : Nat, i ≤ j → GraphReach deps (F^[j] v0) (F^[i] v0) := by
    intro i j hij
    induction j with
    | zero =>
      have : i = 0 := Nat.le_zero.mp hij
      rw [this]
      exact Relation.ReflTransGen.refl
    | succ j ihj =>
      rcases Nat.lt_or_ge i (j + 1) with hlt | hge
      · exact Relation.ReflTransGen.head (hgE j) (ihj (Nat.lt_succ_iff.mp hlt))
      · have : i = j + 1 := Nat.le_antisymm hij hge
        rw [this]
        exact Relation.ReflTransGen.refl
  obtain ⟨i, j, hij, hgij⟩ : ∃ i j : Nat, i < j ∧ F^[i] v0 = F^[j] v0 := by
    have hmaps : ∀ n ∈ Finset.range (S.length + 1), F^[n] v0 ∈ S.toFinset := by
      intro n _
      exact List.mem_toFinset.mpr (hgS n)
    have hcard : S.toFinset.card < (Finset.range (S.length + 1)).card := by
      rw [Finset.card_range]
      exact Nat.lt_succ_of_le S.toFinset_card_le
    obtain ⟨a, ha, b, hb, hab, hfab⟩ :=
      Finset.exists_ne_map_eq_of_card_lt_of_maps_to hcard hmaps
    rcases Nat.lt_or_ge a b with h | h
    · exact ⟨a, b, h, hfab⟩
    · have hba : b < a := lt_of_le_of_ne h (fun e => hab e.symm)
      exact ⟨b, a, hba, hfab.symm⟩
  refine ⟨F^[i+1] v0, F^[i] v0, hgE i, ?_⟩
  have hreach : GraphReach deps (F^[j] v0) (F^[i+1] v0) := hgR (i+1) j hij
  rw [← hgij] at hreach
  exact hreach

/-- full invariant proof of the Kahn loop of `getTopologicalSort`: starting
from a coherent state (in-degree values match the quantitative accounting,
queued nodes are ready, the emitted prefix is dependency-ordered and free of
cycle nodes, and every non-positive in-degree is discovered), the loop
produces a duplicate-free, dependency-ordered list of tasks that avoids all
cycle nodes, and any task it misses witnesses a dependency cycle. -/
theorem kahnLoop_master (tasks : List String) (deps : List WorkstreamDependency)
    (adj : List (String × List String)) (hnd : tasks.Nodup)
    (hfrom : ∀ d ∈ deps, d.fromTaskUuid ∈ tasks)
    (hto : ∀ d ∈ deps, d.toTaskUuid ∈ tasks)
    (hadj : ∀ a ∈ tasks, succsOf adj a =
      (deps.filter (fun d => d.fromTaskUuid == a)).map (fun d => d.toTaskUuid)) :
    ∀ (fuel : Nat) (f : String → Int) (queue result : List String),
      (∀ k ∈ tasks, f k = (numTo deps k : Int) - (numDone deps result k : Int)) →
      (∀ x ∈ queue, x ∈ tasks) →
      (∀ x ∈ result, x ∈ tasks) →
      (result ++ queue).Nodup →
      (∀ x ∈ queue, Ready deps result x) →
      (∀ x ∈ result, Ready deps result x) →
      Ord deps result →
      (∀ k ∈ tasks, f k ≤ 0 → k ∈ result ∨ k ∈ queue) →
      (∀ x ∈ result ++ queue, ¬ OnCyc deps x) →
      tasks.length + 1 ≤ fuel + result.length →
      ((kahnLoop adj fuel (tasks.map (fun k => (k, f k))) queue result).Nodup ∧
       (∀ x ∈ kahnLoop adj fuel (tasks.map (fun k => (k, f k))) queue result,
         x ∈ tasks) ∧
       Ord deps (kahnLoop adj fuel (tasks.map (fun k => (k, f k))) queue result) ∧
       (∀ x ∈ kahnLoop adj fuel (tasks.map (fun k => (k, f k))) queue result,
         ¬ OnCyc deps x) ∧
       (∀ k ∈ tasks, k ∉ kahnLoop adj fuel (tasks.map (fun k => (k, f k))) queue result →
         GraphHasCycle deps)) := by
  intro fuel
  induction fuel with
  | zero =>
    intro f queue result hf hq hr hnd2 hrdyq hrdyr hord hdisc hnc hfuel
    exfalso
    have hndr : result.Nodup := (List.nodup_append.mp hnd2).1
    have hlen := (List.subperm_of_subset hndr (fun x hx => hr x hx)).length_le
    omega
  | succ n ihf =>
    intro f queue result hf hq hr hnd2 hrdyq hrdyr hord hdisc hnc hfuel
    cases queue with
    | nil =>
      have hrun : kahnLoop adj (n + 1) (tasks.map (fun k => (k, f k))) [] result =
          result := rfl
      rw [hrun]
      refine ⟨by simpa using hnd2, hr, hord, fun x hx => hnc x (by simp [hx]), ?_⟩
      intro k hk hkr
      apply stuck_cycle deps (tasks.filter (fun x => !(decide (x ∈ result))))
      · have : k ∈ tasks.filter (fun x => !(decide (x ∈ result))) := by
          rw [List.mem_filter]
          exact ⟨hk, by simp [hkr]⟩
        intro he
        rw [he] at this
        cases this
      · intro v hv
        rw [List.mem_filter] at hv
        obtain ⟨hvt, hvr⟩ := hv
        have hvnr : v ∉ result := by simpa using hvr
        have hvpos : 0 < f v := by
          by_contra hle
          rcases hdisc v hvt (by omega) with h | h
          · exact hvnr h
          · cases h
        have hnotready : ¬ Ready deps result v := by
          intro hrdy
          have := counts_of_ready hrdy
          have hfv := hf v hvt
          omega
        have hde : ∃ d ∈ deps, d.toTaskUuid = v ∧ d.fromTaskUuid ∉ result := by
          by_contra hall
          push_neg at hall
          exact hnotready (fun d hd hdv => hall d hd hdv)
        obtain ⟨d, hd, hdv, hdnr⟩ := hde
        refine ⟨d.fromTaskUuid, ?_, ⟨d, hd, rfl, hdv⟩⟩
        rw [List.mem_filter]
        exact ⟨hfrom d hd, by simp [hdnr]⟩
    | cons t rest =>
      have ht : t ∈ tasks := hq t (by simp)
      have hsucc : succsOf adj t =
          (deps.filter (fun d => d.fromTaskUuid == t)).map (fun d => d.toTaskUuid) :=
        hadj t ht
      have hns : ∀ x ∈ (deps.filter (fun d => d.fromTaskUuid == t)).map
          (fun d => d.toTaskUuid), x ∈ tasks := by
        intro x hx
        rcases List.mem_map.mp hx with ⟨d, hd, rfl⟩
        exact hto d (List.mem_filter.mp hd).1
      obtain ⟨pushed, heq, hp1, hp3, hp2, hp4, hpnd⟩ :=
        processNeighbors_master tasks hnd
          ((deps.filter (fun d => d.fromTaskUuid == t)).map (fun d => d.toTaskUuid))
          f rest hns
      have hrun : kahnLoop adj (n + 1) (tasks.map (fun k => (k, f k))) (t :: rest)
          result = kahnLoop adj n
            (processNeighbors (tasks.map (fun k => (k, f k))) rest (succsOf adj t)).1
            (processNeighbors (tasks.map (fun k => (k, f k))) rest (succsOf adj t)).2
            (result ++ [t]) := rfl
      rw [hrun, hsucc, heq]
      -- decompose the old nodup state
      obtain ⟨hndr, hndtq, hdisj⟩ := List.nodup_append.mp hnd2
      have htnr : t ∉ result := fun h => hdisj h (by simp)
      have hready_t : Ready deps result t := hrdyq t (by simp)
      have hpushed_tasks : ∀ x ∈ pushed, x ∈ tasks := fun x hx => hns x (hp1 x hx)
      -- pushed nodes are fresh: any previously discovered node is ready, so
      -- its in-degree value is zero, while pushed nodes were strictly positive
      have hpd : ∀ x ∈ pushed, x ∉ result ++ t :: rest := by
        intro x hx hmem
        have hRdy : Ready deps result x := by
          rcases List.mem_append.mp hmem with h | h
          · exact hrdyr x h
          · exact hrdyq x h
        have hcr := counts_of_ready hRdy
        have hfx := hf x (hpushed_tasks x hx)
        have hpos := hp3 x hx
        omega
      -- the new in-degree accounting
      have hf' : ∀ k ∈ tasks,
          f k - ((((deps.filter (fun d => d.fromTaskUuid == t)).map
            (fun d => d.toTaskUuid)).count k : Nat) : Int) =
          (numTo deps k : Int) - (numDone deps (result ++ [t]) k : Int) := by
        intro k hk
        rw [count_succs deps t k, numDone_append deps result t htnr k]
        have hfk := hf k hk
        push_cast
        push_cast at hfk
        omega
      have happly := ihf (fun k => f k -
          ((((deps.filter (fun d => d.fromTaskUuid == t)).map
            (fun d => d.toTaskUuid)).count k : Nat) : Int))
        (rest ++ pushed) (result ++ [t]) hf'
        ?_ ?_ ?_ ?_ ?_ ?_ ?_ ?_ ?_
      · exact happly
      -- queue membership
      · intro x hx
        rcases List.mem_append.mp hx with h | h
        · exact hq x (by simp [h])
        · exact hpushed_tasks x h
      -- result membership
      · intro x hx
        rcases List.mem_append.mp hx with h | h
        · exact hr x h
        · rcases List.mem_singleton.mp h with rfl
          exact ht
      -- nodup
      · have hshape : (result ++ [t]) ++ (rest ++ pushed) =
            (result ++ t :: rest) ++ pushed := by
          simp
        rw [hshape]
        exact List.nodup_append.mpr ⟨hnd2, hpnd, fun a ha hap => hpd a hap ha⟩
      -- queued nodes are ready
      · intro x hx
        rcases List.mem_append.mp hx with h | h
        · exact ready_mono (fun y hy => by simp [hy]) (hrdyq x (by simp [h]))
        · have h2 := hp2 x h
          have hfx := hf' x (hpushed_tasks x h)
          apply ready_of_counts
          omega
      -- emitted nodes are ready
      · intro x hx
        rcases List.mem_append.mp hx with h | h
        · exact ready_mono (fun y hy => by simp [hy]) (hrdyr x h)
        · rcases List.mem_singleton.mp h with rfl
          exact ready_mono (fun y hy => by simp [hy]) hready_t
      -- ordering
      · intro d hd hmem
        rcases List.mem_append.mp hmem with h | h
        · obtain ⟨r1, r2, he, hfr⟩ := hord d hd h
          exact ⟨r1, r2 ++ [t], by rw [he]; simp, hfr⟩
        · rcases List.mem_singleton.mp h with he
          refine ⟨result, [], by rw [he], ?_⟩
          exact hready_t d hd he
      -- discovery of non-positive degrees
      · intro k hk hkle
        have hkle' : f k - ((((deps.filter (fun d => d.fromTaskUuid == t)).map
            (fun d => d.toTaskUuid)).count k : Nat) : Int) ≤ 0 := hkle
        by_cases hfk : f k ≤ 0
        · rcases hdisc k hk hfk with h | h
          · exact Or.inl (by simp [h])
          · rcases List.mem_cons.mp h with he | h
            · exact Or.inl (by simp [he])
            · exact Or.inr (by simp [h])
        · have hkc : 0 < ((deps.filter (fun d => d.fromTaskUuid == t)).map
              (fun d => d.toTaskUuid)).count k := by
            omega
          have hkns : k ∈ (deps.filter (fun d => d.fromTaskUuid == t)).map
              (fun d => d.toTaskUuid) := List.count_pos_iff.mp hkc
          exact Or.inr (by simp [hp4 k hkns (by omega) (by omega)])
      -- no cycle nodes discovered
      · intro x hx
        have hsplit : x ∈ result ++ t :: rest ∨ x ∈ pushed := by
          rcases List.mem_append.mp hx with h | h
          · rcases List.mem_append.mp h with h1 | h1
            · exact Or.inl (by simp [h1])
            · rcases List.mem_singleton.mp h1 with rfl
              exact Or.inl (by simp)
          · rcases List.mem_append.mp h with h1 | h1
            · exact Or.inl (by simp [h1])
            · exact Or.inr h1
        rcases hsplit with hold | hpsh
        · exact hnc x hold
        · intro hcyc
          obtain ⟨y, hxy, hyx⟩ := hcyc
          have hRx : Ready deps (result ++ [t]) x := by
            have h2 := hp2 x hpsh
            have hfx := hf' x (hpushed_tasks x hpsh)
            apply ready_of_counts
            omega
          rcases Relation.ReflTransGen.cases_tail hyx with he | ⟨c, hyc, hcx⟩
          · obtain ⟨d, hd, hdf, hdt⟩ := hxy
            rw [← he] at hdt
            have : d.fromTaskUuid ∈ result ++ [t] := hRx d hd hdt
            rw [hdf] at this
            apply hpd x hpsh
            rcases List.mem_append.mp this with h | h
            · exact List.mem_append.mpr (Or.inl h)
            · rcases List.mem_singleton.mp h with rfl
              exact List.mem_append.mpr (Or.inr (by simp))
          · obtain ⟨d, hd, hdf, hdt⟩ := hcx
            have hcm : c ∈ result ++ [t] := by
              have := hRx d hd hdt
              rwa [hdf] at this
            have hcold : c ∈ result ++ t :: rest := by
              rcases List.mem_append.mp hcm with h | h
              · exact List.mem_append.mpr (Or.inl h)
              · rcases List.mem_singleton.mp h with rfl
                exact List.mem_append.mpr (Or.inr (by simp))
            exact hnc c hcold ⟨x, ⟨d, hd, hdf, hdt⟩,
              Relation.ReflTransGen.head hxy hyc⟩
      -- fuel
      · simp only [List.length_append, List.length_singleton]
        omega

/-- C3: `getTopologicalSort` returns `null` exactly when the workstream's
dependency graph contains a directed cycle, and any returned array is a
permutation of the workstream's tasks in which every dependency's `from`
task appears before its `to` task.  (The hypotheses are the data-model
assumptions: the storage validates, the workstream is found, dependency
endpoints are tasks of the workstream, and the task list is
duplicate-free.) -/
theorem C3_topologicalSort_correct
    (st : Storage) (wsUuid : String) (w : Workstream)
    (hval : validateAll st.taskUuids st.workstreams = none)
    (hfind : st.workstreams.find? (fun x => x.uuid == wsUuid) = some w)
    (hEnds : ∀ d ∈ w.dependencies,
      d.fromTaskUuid ∈ w.tasks ∧ d.toTaskUuid ∈ w.tasks)
    (hnd : w.tasks.Nodup) :
    (getTopologicalSort st wsUuid = .ok none ↔ GraphHasCycle w.dependencies) ∧
    (∀ l, getTopologicalSort st wsUuid = .ok (some l) →
      l.Perm w.tasks ∧ ∀ d ∈ w.dependencies, ∃ r1 r2 r3,
        l = r1 ++ d.fromTaskUuid :: (r2 ++ d.toTaskUuid :: r3)) := by
  have hfrom : ∀ d ∈ w.dependencies, d.fromTaskUuid ∈ w.tasks :=
    fun d hd => (hEnds d hd).1
  have hto : ∀ d ∈ w.dependencies, d.toTaskUuid ∈ w.tasks :=
    fun d hd => (hEnds d hd).2
  have hadj : ∀ a ∈ w.tasks, succsOf (depsAdj w.dependencies (initAdj w.tasks)) a =
      (w.dependencies.filter (fun d => d.fromTaskUuid == a)).map
        (fun d => d.toTaskUuid) := by
    intro a ha
    unfold succsOf
    rw [mget_depsAdj, mget_initAdj, if_pos ha]
    simp
  have hindeg : bumpIndeg w.dependencies (initIndeg w.tasks) =
      w.tasks.map (fun k => (k, (0 : Int) + (numTo w.dependencies k : Int))) := by
    rw [initIndeg_map_form w.tasks hnd]
    exact bumpIndeg_map_form w.dependencies w.tasks hnd hto (fun _ => (0 : Int))
  have hqueue0 : ((bumpIndeg w.dependencies (initIndeg w.tasks)).filter
      (fun p => p.2 == 0)).map Prod.fst =
      w.tasks.filter (fun k => ((0 : Int) + (numTo w.dependencies k : Int)) == 0) := by
    rw [hindeg]
    exact filter_map_form w.tasks (fun k => (0 : Int) + (numTo w.dependencies k : Int))
  have hq0mem : ∀ x,
      x ∈ w.tasks.filter (fun k => ((0 : Int) + (numTo w.dependencies k : Int)) == 0) ↔
      (x ∈ w.tasks ∧ numTo w.dependencies x = 0) := by
    intro x
    rw [List.mem_filter]
    constructor
    · rintro ⟨h1, h2⟩
      have h3 := beq_iff_eq.mp h2
      exact ⟨h1, by omega⟩
    · rintro ⟨h1, h2⟩
      refine ⟨h1, beq_iff_eq.mpr ?_⟩
      omega
  have hnumTo_pos : ∀ x, ∀ d ∈ w.dependencies, d.toTaskUuid = x →
      0 < numTo w.dependencies x := by
    intro x d hd hdx
    unfold numTo
    apply List.length_pos.mpr
    apply List.ne_nil_of_mem (a := d)
    exact List.mem_filter.mpr ⟨hd, by simp [hdx]⟩
  have hrun : getTopologicalSort st wsUuid =
      (if ((kahnLoop (depsAdj w.dependencies (initAdj w.tasks)) (w.tasks.length + 1)
          (bumpIndeg w.dependencies (initIndeg w.tasks))
          (((bumpIndeg w.dependencies (initIndeg w.tasks)).filter
            (fun p => p.2 == 0)).map Prod.fst) []).length == w.tasks.length)
        then Except.ok (some (kahnLoop (depsAdj w.dependencies (initAdj w.tasks))
          (w.tasks.length + 1) (bumpIndeg w.dependencies (initIndeg w.tasks))
          (((bumpIndeg w.dependencies (initIndeg w.tasks)).filter
            (fun p => p.2 == 0)).map Prod.fst) []))
        else Except.ok none) := by
    simp only [getTopologicalSort, loadAndValidateWorkstreams, hval, hfind]
  rw [hqueue0] at hrun
  have HM := kahnLoop_master w.tasks w.dependencies
    (depsAdj w.dependencies (initAdj w.tasks)) hnd hfrom hto hadj
    (w.tasks.length + 1) (fun k => (0 : Int) + (numTo w.dependencies k : Int))
    (w.tasks.filter (fun k => ((0 : Int) + (numTo w.dependencies k : Int)) == 0)) []
    (by
      intro k _
      rw [numDone_nil]
      simp)
    (fun x hx => ((hq0mem x).mp hx).1)
    (by
      intro x hx
      cases hx)
    (by
      simp only [List.nil_append]
      exact List.Nodup.filter _ hnd)
    (by
      intro x hx d hd hdx
      exfalso
      have h0 := ((hq0mem x).mp hx).2
      have h1 := hnumTo_pos x d hd hdx
      omega)
    (by
      intro x hx
      cases hx)
    (by
      intro d _ hmem
      cases hmem)
    (by
      intro k hk hkle
      have hkle' : (0 : Int) + (numTo w.dependencies k : Int) ≤ 0 := hkle
      refine Or.inr ((hq0mem k).mpr ⟨hk, ?_⟩)
      omega)
    (by
      intro x hx hcyc
      simp only [List.nil_append] at hx
      have h0 := ((hq0mem x).mp hx).2
      obtain ⟨y, hxy, hyx⟩ := hcyc
      rcases Relation.ReflTransGen.cases_tail hyx with he | ⟨c, hyc, hcx⟩
      · obtain ⟨d, hd, hdf, hdt⟩ := hxy
        rw [← he] at hdt
        have := hnumTo_pos x d hd hdt
        omega
      · obtain ⟨d, hd, hdf, hdt⟩ := hcx
        have := hnumTo_pos x d hd hdt
        omega)
    (by simp)
  rw [← hindeg] at HM
  obtain ⟨HM1, HM2, HM3, HM4, HM5⟩ := HM
  rw [hrun]
  constructor
  · constructor
    · intro hok
      by_cases hlen : ((kahnLoop (depsAdj w.dependencies (initAdj w.tasks))
          (w.tasks.length + 1) (bumpIndeg w.dependencies (initIndeg w.tasks))
          (w.tasks.filter (fun k => ((0 : Int) + (numTo w.dependencies k : Int)) == 0))
          []).length == w.tasks.length) = true
      · rw [if_pos hlen] at hok
        simp at hok
      · rw [if_neg hlen] at hok
        have hlt : (kahnLoop (depsAdj w.dependencies (initAdj w.tasks))
            (w.tasks.length + 1) (bumpIndeg w.dependencies (initIndeg w.tasks))
            (w.tasks.filter (fun k => ((0 : Int) + (numTo w.dependencies k : Int)) == 0))
            []).length ≠ w.tasks.length := by
          simpa using hlen
        have hexk : ∃ k ∈ w.tasks, k ∉ kahnLoop (depsAdj w.dependencies (initAdj w.tasks))
            (w.tasks.length + 1) (bumpIndeg w.dependencies (initIndeg w.tasks))
            (w.tasks.filter (fun k => ((0 : Int) + (numTo w.dependencies k : Int)) == 0))
            [] := by
          by_contra hall
          push_neg at hall
          have h1 := (List.subperm_of_subset hnd (fun x hx => hall x hx)).length_le
          have h2 := (List.subperm_of_subset HM1 (fun x hx => HM2 x hx)).length_le
          omega
        obtain ⟨k, hk, hkR⟩ := hexk
        exact HM5 k hk hkR
    · intro hcyc
      obtain ⟨v, u, hvu, huv⟩ := hcyc
      have hvt : v ∈ w.tasks := by
        obtain ⟨d, hd, hdf, _⟩ := hvu
        rw [← hdf]
        exact hfrom d hd
      have hvnR : v ∉ kahnLoop (depsAdj w.dependencies (initAdj w.tasks))
          (w.tasks.length + 1) (bumpIndeg w.dependencies (initIndeg w.tasks))
          (w.tasks.filter (fun k => ((0 : Int) + (numTo w.dependencies k : Int)) == 0))
          [] := fun hmem => HM4 v hmem ⟨u, hvu, huv⟩
      have hlen : ¬ (((kahnLoop (depsAdj w.dependencies (initAdj w.tasks))
          (w.tasks.length + 1) (bumpIndeg w.dependencies (initIndeg w.tasks))
          (w.tasks.filter (fun k => ((0 : Int) + (numTo w.dependencies k : Int)) == 0))
          []).length == w.tasks.length) = true) := by
        intro hlen
        have hleq := beq_iff_eq.mp hlen
        have hperm : (kahnLoop (depsAdj w.dependencies (initAdj w.tasks))
            (w.tasks.length + 1) (bumpIndeg w.dependencies (initIndeg w.tasks))
            (w.tasks.filter (fun k => ((0 : Int) + (numTo w.dependencies k : Int)) == 0))
            []).Perm w.tasks := by
          apply List.Subperm.perm_of_length_le
          · exact List.subperm_of_subset HM1 (fun x hx => HM2 x hx)
          · omega
        exact hvnR (hperm.mem_iff.mpr hvt)
      rw [if_neg hlen]
  · intro l hok
    by_cases hlen : ((kahnLoop (depsAdj w.dependencies (initAdj w.tasks))
        (w.tasks.length + 1) (bumpIndeg w.dependencies (initIndeg w.tasks))
        (w.tasks.filter (fun k => ((0 : Int) + (numTo w.dependencies k : Int)) == 0))
        []).length == w.tasks.length) = true
    · rw [if_pos hlen] at hok
      have hRl : kahnLoop (depsAdj w.dependencies (initAdj w.tasks))
          (w.tasks.length + 1) (bumpIndeg w.dependencies (initIndeg w.tasks))
          (w.tasks.filter (fun k => ((0 : Int) + (numTo w.dependencies k : Int)) == 0))
          [] = l := by
        simp only [Except.ok.injEq, Option.some.injEq] at hok
        exact hok
      rw [← hRl]
      have hleq := beq_iff_eq.mp hlen
      have hperm : (kahnLoop (depsAdj w.dependencies (initAdj w.tasks))
          (w.tasks.length + 1) (bumpIndeg w.dependencies (initIndeg w.tasks))
          (w.tasks.filter (fun k => ((0 : Int) + (numTo w.dependencies k : Int)) == 0))
          []).Perm w.tasks := by
        apply List.Subperm.perm_of_length_le
        · exact List.subperm_of_subset HM1 (fun x hx => HM2 x hx)
        · omega
      refine ⟨hperm, ?_⟩
      intro d hd
      have hdto : d.toTaskUuid ∈ kahnLoop (depsAdj w.dependencies (initAdj w.tasks))
          (w.tasks.length + 1) (bumpIndeg w.dependencies (initIndeg w.tasks))
          (w.tasks.filter (fun k => ((0 : Int) + (numTo w.dependencies k : Int)) == 0))
          [] := hperm.mem_iff.mpr (hto d hd)
      obtain ⟨r1, r2, hsplit, hfr1⟩ := HM3 d hd hdto
      obtain ⟨s1, s2, hs⟩ := List.append_of_mem hfr1
      refine ⟨s1, s2, r2, ?_⟩
      rw [hsplit, hs]
      simp
    · rw [if_neg hlen] at hok
      simp at hok

/-- C3 witness: the claim theorem applied to the concrete storage with
tasks `A, B, C` and dependencies `A→B`, `B→C`. -/
theorem C3_topologicalSort_correct_witness :
    (getTopologicalSort exStABC "W" = .ok none ↔ GraphHasCycle exWsABC.dependencies) ∧
    (∀ l, getTopologicalSort exStABC "W" = .ok (some l) →
      l.Perm exWsABC.tasks ∧ ∀ d ∈ exWsABC.dependencies, ∃ r1 r2 r3,
        l = r1 ++ d.fromTaskUuid :: (r2 ++ d.toTaskUuid :: r3)) :=
  C3_topologicalSort_correct exStABC "W" exWsABC (by decide) (by decide)
    (by decide) (by decide)

/-! ### Claim C7 (amended): component coverage and no silent drops

The component dfs appends the same newly-visited nodes to `visited` and to
the current component, so every node ends up in some component, and a
successful layout therefore assigns a position to every input node. -/

theorem dfsList_append
    (f : List String → List String → String → List String × List String)
    (hf : ∀ v c n, ∃ new, f v c n = (v ++ new, c ++ new)) :
    ∀ (ns vis comp : List String), ∃ new,
      dfsList f vis comp ns = (vis ++ new, comp ++ new) := by
  intro ns
  induction ns with
  | nil =>
    intro vis comp
    exact ⟨[], by simp [dfsList]⟩
  | cons n ns ih =>
    intro vis comp
    obtain ⟨a, ha⟩ := hf vis comp n
    obtain ⟨b, hb⟩ := ih (vis ++ a) (comp ++ a)
    refine ⟨a ++ b, ?_⟩
    have hstep : dfsList f vis comp (n :: ns) =
        dfsList f (f vis comp n).1 (f vis comp n).2 ns := rfl
    rw [hstep, ha]
    show dfsList f (vis ++ a) (comp ++ a) ns =
      (vis ++ (a ++ b), comp ++ (a ++ b))
    rw [hb]
    simp [List.append_assoc]

theorem dfsComp_append (adj radj : List (String × List String)) :
    ∀ (fuel : Nat) (vis comp : List String) (node : String), ∃ new,
      dfsComp adj radj fuel vis comp node = (vis ++ new, comp ++ new) := by
  intro fuel
  induction fuel with
  | zero =>
    intro vis comp node
    exact ⟨[], by simp [dfsComp]⟩
  | succ n ihf =>
    intro vis comp node
    by_cases hv : node ∈ vis
    · refine ⟨[], ?_⟩
      simp [dfsComp, hv]
    · obtain ⟨a, ha⟩ := dfsList_append (dfsComp adj radj n) ihf
        (succsOf adj node) (vis ++ [node]) (comp ++ [node])
      obtain ⟨b, hb⟩ := dfsList_append (dfsComp adj radj n) ihf
        (succsOf radj node) ((vis ++ [node]) ++ a) ((comp ++ [node]) ++ a)
      refine ⟨[node] ++ (a ++ b), ?_⟩
      simp only [dfsComp]
      rw [if_neg hv, ha]
      show dfsList (dfsComp adj radj n) ((vis ++ [node]) ++ a)
          ((comp ++ [node]) ++ a) (succsOf radj node) =
        (vis ++ ([node] ++ (a ++ b)), comp ++ ([node] ++ (a ++ b)))
      rw [hb]
      simp [List.append_assoc]

theorem dfsComp_head (adj radj : List (String × List String)) (fuel : Nat)
    (vis comp : List String) (node : String) (hfuel : 0 < fuel)
    (hv : node ∉ vis) :
    node ∈ (dfsComp adj radj fuel vis comp node).1 := by
  cases fuel with
  | zero => omega
  | succ n =>
    obtain ⟨a, ha⟩ := dfsList_append (dfsComp adj radj n) (dfsComp_append adj radj n)
      (succsOf adj node) (vis ++ [node]) (comp ++ [node])
    obtain ⟨b, hb⟩ := dfsList_append (dfsComp adj radj n) (dfsComp_append adj radj n)
      (succsOf radj node) ((vis ++ [node]) ++ a) ((comp ++ [node]) ++ a)
    simp only [dfsComp]
    rw [if_neg hv, ha]
    show node ∈ (dfsList (dfsComp adj radj n) ((vis ++ [node]) ++ a)
        ((comp ++ [node]) ++ a) (succsOf radj node)).1
    rw [hb]
    simp

theorem layout_fold_invariants (adj radj : List (String × List String))
    (fuel : Nat) (hfuel : 0 < fuel) :
    ∀ (l : List LNode) (s : List String × List (List String)),
      (∀ x, x ∈ s.1 → ∃ c ∈ s.2, x ∈ c) →
      ((∀ x, x ∈ s.1 → x ∈ (l.foldl
          (fun s n =>
            if n.id ∈ s.1 then s
            else
              let r := dfsComp adj radj fuel s.1 [] n.id
              (r.1, s.2 ++ [r.2])) s).1) ∧
       (∀ x, x ∈ (l.foldl
          (fun s n =>
            if n.id ∈ s.1 then s
            else
              let r := dfsComp adj radj fuel s.1 [] n.id
              (r.1, s.2 ++ [r.2])) s).1 → ∃ c ∈ (l.foldl
          (fun s n =>
            if n.id ∈ s.1 then s
            else
              let r := dfsComp adj radj fuel s.1 [] n.id
              (r.1, s.2 ++ [r.2])) s).2, x ∈ c) ∧
       (∀ n ∈ l, n.id ∈ (l.foldl
          (fun s n =>
            if n.id ∈ s.1 then s
            else
              let r := dfsComp adj radj fuel s.1 [] n.id
              (r.1, s.2 ++ [r.2])) s).1)) := by
  intro l
  induction l with
  | nil =>
    intro s hI
    refine ⟨fun x hx => hx, hI, ?_⟩
    intro n hn
    cases hn
  | cons m l ih =>
    intro s hI
    simp only [List.foldl_cons]
    by_cases hm : m.id ∈ s.1
    · rw [if_pos hm]
      obtain ⟨imono, iI, icover⟩ := ih s hI
      refine ⟨imono, iI, ?_⟩
      intro n hn
      rcases List.mem_cons.mp hn with he | hn'
      · rw [he]
        exact imono m.id hm
      · exact icover n hn'
    · rw [if_neg hm]
      obtain ⟨new, hnew⟩ := dfsComp_append adj radj fuel s.1 [] m.id
      have hI' : ∀ x, x ∈ ((dfsComp adj radj fuel s.1 [] m.id).1,
          s.2 ++ [(dfsComp adj radj fuel s.1 [] m.id).2]).1 →
          ∃ c ∈ ((dfsComp adj radj fuel s.1 [] m.id).1,
            s.2 ++ [(dfsComp adj radj fuel s.1 [] m.id).2]).2, x ∈ c := by
        intro x hx
        rw [hnew] at hx
        simp only [hnew]
        rcases List.mem_append.mp hx with h | h
        · obtain ⟨c, hc, hxc⟩ := hI x h
          exact ⟨c, by simp [hc], hxc⟩
        · refine ⟨[] ++ new, ?_, by simpa using h⟩
          simp
      obtain ⟨imono, iI, icover⟩ := ih ((dfsComp adj radj fuel s.1 [] m.id).1,
        s.2 ++ [(dfsComp adj radj fuel s.1 [] m.id).2]) hI'
      refine ⟨?_, iI, ?_⟩
      · intro x hx
        apply imono
        rw [hnew]
        exact List.mem_append.mpr (Or.inl hx)
      · intro n hn
        rcases List.mem_cons.mp hn with he | hn'
        · rw [he]
          apply imono
          exact dfsComp_head adj radj fuel s.1 [] m.id hfuel hm
        · exact icover n hn'

theorem layoutComponents_cover (nodes : List LNode) (edges : List LEdge) :
    ∀ n ∈ nodes, ∃ comp ∈ layoutComponents nodes edges, n.id ∈ comp := by
  intro n hn
  obtain ⟨hmono, hI, hcover⟩ := layout_fold_invariants (layoutAdj nodes edges)
    (layoutRevAdj nodes edges) (nodes.length + 2 * edges.length + 2) (by omega)
    nodes ([], []) (fun x hx => absurd hx (List.not_mem_nil x))
  exact hI n.id (hcover n hn)

theorem mget_isSome_mset {α} (m : List (String × α)) (k k' : String) (v : α)
    (h : (mget m k').isSome) : (mget (mset m k v) k').isSome := by
  rw [mget_mset_isSome]
  simp [h]

theorem placeNodes_isSome (isChain : Bool) (baseY startX : Coord)
    (levelIndex levelLen : Nat) :
    ∀ (lv : List String) (nodeIndex : Nat) (positions : List (String × LPos))
      (x : String), (x ∈ lv ∨ (mget positions x).isSome) →
      (mget (placeNodes isChain baseY startX levelIndex levelLen nodeIndex lv
        positions) x).isSome := by
  intro lv
  induction lv with
  | nil =>
    intro nodeIndex positions x h
    rcases h with h | h
    · cases h
    · simpa [placeNodes] using h
  | cons n ns ih =>
    intro nodeIndex positions x h
    simp only [placeNodes]
    apply ih
    rcases h with hmem | hsome
    · rcases List.mem_cons.mp hmem with he | hns
      · right
        rw [he, mget_mset_self]
        rfl
      · left
        exact hns
    · right
      exact mget_isSome_mset positions n x _ hsome

theorem placeLevels_isSome (isChain : Bool) (baseY : Coord) :
    ∀ (lvs : List (List String)) (levelIndex : Nat)
      (positions : List (String × LPos)) (x : String),
      ((∃ lv ∈ lvs, x ∈ lv) ∨ (mget positions x).isSome) →
      (mget (placeLevels isChain baseY levelIndex lvs positions) x).isSome := by
  intro lvs
  induction lvs with
  | nil =>
    intro levelIndex positions x h
    rcases h with ⟨lv, hlv, _⟩ | h
    · cases hlv
    · simpa [placeLevels] using h
  | cons lv lvs ih =>
    intro levelIndex positions x h
    simp only [placeLevels]
    apply ih
    rcases h with ⟨lv', hlv', hx⟩ | hsome
    · rcases List.mem_cons.mp hlv' with he | hlvs
      · right
        apply placeNodes_isSome
        left
        rw [← he]
        exact hx
      · left
        exact ⟨lv', hlvs, hx⟩
    · right
      apply placeNodes_isSome
      right
      exact hsome

/-- the else-branch of a component layout: when no node of the component is
left over by the leveling, every component node (and every previously
positioned node) has a position after placement. -/
theorem covers_of_no_remaining (comp : List String) (levels : List (List String))
    (hcond : ¬ ((comp.filter (fun n => n ∉ levels.flatten)).length > 0))
    (isChain : Bool) (curY : Coord) (positions : List (String × LPos)) :
    (∀ n ∈ comp, (mget (placeLevels isChain curY 0 levels positions) n).isSome) ∧
    (∀ x, (mget positions x).isSome →
      (mget (placeLevels isChain curY 0 levels positions) x).isSome) := by
  constructor
  · intro n hn
    have hnil : comp.filter (fun n => n ∉ levels.flatten) = [] := by
      have hl0 : (comp.filter (fun n => n ∉ levels.flatten)).length = 0 := by omega
      exact List.length_eq_zero.mp hl0
    have hflat : n ∈ levels.flatten := by
      by_contra hnot
      have hmem : n ∈ comp.filter (fun n => n ∉ levels.flatten) :=
        List.mem_filter.mpr ⟨hn, by simpa using hnot⟩
      rw [hnil] at hmem
      cases hmem
    obtain ⟨lv, hlv, hnlv⟩ := List.mem_flatten.mp hflat
    exact placeLevels_isSome isChain curY levels 0 positions n (Or.inl ⟨lv, hlv, hnlv⟩)
  · intro x hx
    exact placeLevels_isSome isChain curY levels 0 positions x (Or.inr hx)

theorem layoutComponent_ok_covers (edges : List LEdge)
    (positions : List (String × LPos)) (curY : Coord)
    (component : List String) (res : List (String × LPos) × Coord)
    (hok : layoutComponent edges positions curY component = .ok res) :
    (∀ n ∈ component, (mget res.1 n).isSome) ∧
    (∀ x, (mget positions x).isSome → (mget res.1 x).isSome) := by
  rcases component with _ | ⟨c1, _ | ⟨c2, cs⟩⟩
  · simp only [layoutComponent] at hok
    split at hok
    · cases hok
    · next hcond =>
      cases hok
      refine ⟨fun n hn => absurd hn (List.not_mem_nil n), ?_⟩
      intro x hx
      exact placeLevels_isSome _ curY _ 0 positions x (Or.inr hx)
  · simp only [layoutComponent] at hok
    have hres : (mset positions c1 ⟨natQ 0, curY⟩, qAdd curY (natQ 100)) = res := by
      simpa using hok
    constructor
    · intro n hn
      have he : n = c1 := List.mem_singleton.mp hn
      rw [← hres]
      show (mget (mset positions c1 ⟨natQ 0, curY⟩) n).isSome
      rw [he, mget_mset_self]
      rfl
    · intro x hx
      rw [← hres]
      show (mget (mset positions c1 ⟨natQ 0, curY⟩) x).isSome
      exact mget_isSome_mset positions c1 x _ hx
  · simp only [layoutComponent] at hok
    split at hok
    · cases hok
    · next hcond =>
      cases hok
      refine covers_of_no_remaining (c1 :: c2 :: cs) _ hcond _ curY positions

theorem layoutFold_ok_covers (edges : List LEdge) :
    ∀ (comps : List (List String)) (positions : List (String × LPos))
      (curY : Coord) (res : List (String × LPos)),
      layoutFold edges comps positions curY = .ok res →
      ((∀ comp ∈ comps, ∀ n ∈ comp, (mget res n).isSome) ∧
       (∀ x, (mget positions x).isSome → (mget res x).isSome)) := by
  intro comps
  induction comps with
  | nil =>
    intro positions curY res hok
    have hres : positions = res := by
      simpa [layoutFold] using hok
    refine ⟨?_, ?_⟩
    · intro comp hc
      cases hc
    · intro x hx
      rw [← hres]
      exact hx
  | cons c cs ih =>
    intro positions curY res hok
    rcases hlc : layoutComponent edges positions curY c with e | s
    · have hthis : layoutFold edges (c :: cs) positions curY = .error e := by
        simp only [layoutFold]
        rw [hlc]
      rw [hthis] at hok
      cases hok
    · have hstep : layoutFold edges (c :: cs) positions curY =
          layoutFold edges cs s.1 s.2 := by
        simp only [layoutFold]
        rw [hlc]
      rw [hstep] at hok
      obtain ⟨hcomp, hpres⟩ := layoutComponent_ok_covers edges positions curY c s hlc
      obtain ⟨icomp, ipres⟩ := ih s.1 s.2 res hok
      refine ⟨?_, fun x hx => ipres x (hpres x hx)⟩
      intro comp hc n hn
      rcases List.mem_cons.mp hc with he | hc'
      · exact ipres n (hcomp n (he ▸ hn))
      · exact icomp comp hc' n hn

/-- C7 (amended): a successful layout positions every input node (the engine
never silently drops an unprocessed node), and on the triangle
`A→B, B→C, C→A` the computation fails with `CycleDetected` naming exactly
the nodes `A, B, C` of the cyclic component left unemitted by the leveling.
(The original universally-quantified cycle claim is refuted by
`C7_counterexample`: a self-loop confined to a singleton component is laid
out without any cycle check.) -/
theorem C7_cycle_error_and_no_silent_drops :
    (∀ (nodes : List LNode) (edges : List LEdge)
      (positions : List (String × LPos)),
      calculateDAGPositions nodes edges = .ok positions →
      ∀ n ∈ nodes, (mget positions n.id).isSome) ∧
    calculateDAGPositions [⟨"A", "A"⟩, ⟨"B", "B"⟩, ⟨"C", "C"⟩]
        [⟨"A", "B"⟩, ⟨"B", "C"⟩, ⟨"C", "A"⟩] =
      .error (.cycleDetected ["A", "B", "C"]) := by
  constructor
  · intro nodes edges positions hok n hn
    unfold calculateDAGPositions at hok
    by_cases hempty : nodes.isEmpty = true
    · rw [if_pos hempty] at hok
      have hnil : nodes = [] := List.isEmpty_iff.mp hempty
      rw [hnil] at hn
      cases hn
    · rw [if_neg hempty] at hok
      obtain ⟨comp, hcomp, hncomp⟩ := layoutComponents_cover nodes edges n hn
      obtain ⟨hcov, _⟩ := layoutFold_ok_covers edges (layoutComponents nodes edges)
        [] (natQ 0) positions hok
      exact hcov comp hcomp n.id hncomp
  · decide

/-- C7 witness: the no-silent-drop conclusion applied to a single node with
no edges, whose successful layout is computed concretely. -/
theorem C7_cycle_error_and_no_silent_drops_witness :
    (mget [("A", (⟨natQ 0, natQ 0⟩ : LPos))] "A").isSome :=
  C7_cycle_error_and_no_silent_drops.1 [⟨"A", "A"⟩] []
    [("A", ⟨natQ 0, natQ 0⟩)] (by decide) ⟨"A", "A"⟩ (by decide)

end Soltra
